import Mathlib

/-!
Verification development for the delta-kernel log-replay core and the
column-name codec.

Field names are modelled as lists of characters and a column name as a list
of field names, mirroring the Rust iteration over chars() in
src/kernel/src/expressions/column_names.rs.  The log-replay scanner
(src/kernel/src/scan/log_replay.rs) is modelled further below with explicit
state passing for the mutable seen-set and per-row transform list.
-/

namespace DeltaKernel

/-- is_simple_char from the source: ASCII alphanumeric or underscore.
ASCII-alphanumeric is the three code-point ranges 0-9 (48-57), A-Z (65-90)
and a-z (97-122); the underscore is code point 95. -/
def isSimpleChar (c : Char) : Bool :=
  (decide (48 ≤ c.toNat) && decide (c.toNat ≤ 57)) ||
    (decide (65 ≤ c.toNat) && decide (c.toNat ≤ 90)) ||
    (decide (97 ≤ c.toNat) && decide (c.toNat ≤ 122)) || c.toNat == 95

/-- char::is_ascii_digit: code points 48-57. -/
def isAsciiDigit (c : Char) : Bool :=
  decide (48 ≤ c.toNat) && decide (c.toNat ≤ 57)

/-- Rust char::is_whitespace: a character with the Unicode White_Space
property (the exact code-point list of that property). -/
def isRustWhitespace (c : Char) : Bool :=
  let n := c.toNat
  (decide (0x9 ≤ n) && decide (n ≤ 0xD)) || n == 0x20 || n == 0x85 || n == 0xA0 ||
    n == 0x1680 || (decide (0x2000 ≤ n) && decide (n ≤ 0x200A)) || n == 0x2028 ||
    n == 0x2029 || n == 0x202F || n == 0x205F || n == 0x3000

/-- Whether Display for ColumnName must escape a field: the field is empty,
starts with an ASCII digit, or contains a character that is not simple. -/
def needsEscape (s : List Char) : Bool :=
  s.isEmpty || (match s.head? with | some c => isAsciiDigit c | none => false) ||
    s.any fun c => !isSimpleChar c

/-- The escaped body of a field: each embedded escape character (backtick)
is doubled. -/
def escapeChars : List Char → List Char
  | [] => []
  | '`' :: rest => '`' :: '`' :: escapeChars rest
  | c :: rest => c :: escapeChars rest

/-- Display for one field: emitted as-is when simple, otherwise wrapped in
escape characters with embedded escape characters doubled. -/
def printField (s : List Char) : List Char :=
  if needsEscape s then '`' :: (escapeChars s ++ ['`']) else s

/-- Display for ColumnName: fields joined by the field separator (dot), with
no separator before the first field. -/
def printColumnName : List (List Char) → List Char
  | [] => []
  | [f] => printField f
  | f :: fs => printField f ++ '.' :: printColumnName fs

/-- The parse errors raised by the column-name parser.  All of them surface
as Malformed (generic) errors in the source; the constructor records which
failure fired and its diagnostic payload. -/
inductive ParseErr where
  | unterminatedEscape : ParseErr
  | digitStart (c : Char) : ParseErr
  | invalidChar (c : Char) (field : List Char) : ParseErr
  | trailingComma : ParseErr
deriving DecidableEq, Repr

/-- What comes after the end of the field just parsed. -/
inductive FieldEnding where
  | inputExhausted
  | nextField
  | nextColumn
deriving DecidableEq, Repr

/-- drop_leading_whitespace: consume characters while they are whitespace. -/
def dropLeadingWhitespace : List Char → List Char
  | [] => []
  | c :: rest => if isRustWhitespace c then dropLeadingWhitespace rest else c :: rest

/-- Iterator::find over the remaining characters with predicate
"not whitespace": consumes through the first non-whitespace character and
returns it together with what follows. -/
def findNonWs : List Char → Option (Char × List Char)
  | [] => none
  | c :: rest => if isRustWhitespace c then findNonWs rest else some (c, rest)

/-- parse_escaped_field_name: the opening escape character has already been
consumed.  A doubled escape character collapses to one; the first escape
character not immediately followed by another closes the field; running out
of input is the unterminated-escape error. -/
def parseEscapedFieldName : List Char → Except ParseErr (List Char × List Char)
  | [] => .error .unterminatedEscape
  | '`' :: '`' :: rest =>
    match parseEscapedFieldName rest with
    | .ok (n, r) => .ok ('`' :: n, r)
    | .error e => .error e
  | '`' :: rest => .ok ([], rest)
  | c :: rest =>
    match parseEscapedFieldName rest with
    | .ok (n, r) => .ok (c :: n, r)
    | .error e => .error e

/-- Reads characters while the simple-char predicate holds, returning the
taken prefix and the rest. -/
def takeWhileSimple : List Char → List Char × List Char
  | [] => ([], [])
  | c :: rest =>
    if isSimpleChar c then
      let (n, r) := takeWhileSimple rest
      (c :: n, r)
    else ([], c :: rest)

/-- parse_simple_field_name: reads while the simple-char predicate holds.
The source raises the digit error when the first taken character is an ASCII
digit; a digit is always a simple character, so the error fires exactly when
the input starts with a digit. -/
def parseSimpleFieldName (cs : List Char) : Except ParseErr (List Char × List Char) :=
  match cs with
  | c :: _ => if isAsciiDigit c then .error (.digitStart c) else .ok (takeWhileSimple cs)
  | [] => .ok ([], [])

/-- One iteration of the field loop inside parse_column_name: skip leading
whitespace, then parse an escaped field if the next character is the escape
character, a simple field otherwise. -/
def parseOneField (cs : List Char) : Except ParseErr (List Char × List Char) :=
  match dropLeadingWhitespace cs with
  | [] => parseSimpleFieldName []
  | c :: rest =>
    if c = '`' then parseEscapedFieldName rest else parseSimpleFieldName (c :: rest)

/-- After one field: find the first non-whitespace character.  End of input
ends the column; the field separator announces another field; the column
separator ends this column with more to follow; anything else is the
invalid-character error carrying the offending character and the field. -/
def parseFieldStep (cs : List Char) : Except ParseErr (List Char × FieldEnding × List Char) :=
  match parseOneField cs with
  | .error e => .error e
  | .ok (name, r) =>
    match findNonWs r with
    | none => .ok (name, .inputExhausted, [])
    | some (c, rest2) =>
      if c = '.' then .ok (name, .nextField, rest2)
      else if c = ',' then .ok (name, .nextColumn, rest2)
      else .error (.invalidChar c name)

theorem dropLeadingWhitespace_length (cs : List Char) :
    (dropLeadingWhitespace cs).length ≤ cs.length := by
  induction cs with
  | nil => simp [dropLeadingWhitespace]
  | cons c rest ih =>
    simp only [dropLeadingWhitespace]
    split
    · exact le_trans ih (Nat.le_succ _)
    · simp

theorem findNonWs_length {cs rest : List Char} {c : Char}
    (h : findNonWs cs = some (c, rest)) : rest.length < cs.length := by
  induction cs with
  | nil => simp [findNonWs] at h
  | cons a t ih =>
    simp only [findNonWs] at h
    split at h
    · exact lt_trans (ih h) (Nat.lt_succ_self _)
    · cases h; simp

theorem takeWhileSimple_length (cs : List Char) :
    (takeWhileSimple cs).2.length ≤ cs.length := by
  induction cs with
  | nil => simp [takeWhileSimple]
  | cons c rest ih =>
    rcases htw : takeWhileSimple rest with ⟨n, r⟩
    rw [htw] at ih
    simp only [takeWhileSimple, htw]
    split
    · simpa using le_trans ih (Nat.le_succ _)
    · simp

theorem parseSimpleFieldName_length {cs n r : List Char}
    (h : parseSimpleFieldName cs = .ok (n, r)) : r.length ≤ cs.length := by
  cases cs with
  | nil =>
    simp only [parseSimpleFieldName] at h
    cases h
    simp
  | cons c rest =>
    simp only [parseSimpleFieldName] at h
    split at h
    · cases h
    · injection h with h2
      have := takeWhileSimple_length (c :: rest)
      rw [h2] at this
      simpa using this

theorem parseEscapedFieldName_length {cs : List Char} :
    ∀ {n r}, parseEscapedFieldName cs = .ok (n, r) → r.length ≤ cs.length := by
  induction cs using parseEscapedFieldName.induct with
  | case1 => intro n r h; cases h
  | case2 rest n' r' hrec ih =>
    intro n r h
    simp only [parseEscapedFieldName, hrec] at h
    cases h
    have := ih hrec
    simp only [List.length_cons]
    omega
  | case3 rest e hrec ih =>
    intro n r h
    simp only [parseEscapedFieldName, hrec] at h
    cases h
  | case4 rest hne =>
    intro n r h
    cases rest with
    | nil =>
      cases h
      simp
    | cons a t =>
      have ha : a ≠ '`' := fun hc => hne t (by rw [hc])
      simp only [parseEscapedFieldName, ha] at h
      cases h
      simp
  | case5 c rest h1 h2 n' r' hrec ih =>
    intro n r h
    have hc : c ≠ '`' := fun hceq => h2 hceq
    simp only [parseEscapedFieldName, hc, hrec] at h
    cases h
    exact le_trans (ih hrec) (Nat.le_succ _)
  | case6 c rest h1 h2 e hrec ih =>
    intro n r h
    have hc : c ≠ '`' := fun hceq => h2 hceq
    simp only [parseEscapedFieldName, hc, hrec] at h
    cases h

theorem parseOneField_length {cs n r : List Char}
    (h : parseOneField cs = .ok (n, r)) : r.length ≤ cs.length := by
  have hlen := dropLeadingWhitespace_length cs
  unfold parseOneField at h
  split at h
  · simp only [parseSimpleFieldName] at h
    cases h
    simp
  · rename_i c rest heq
    rw [heq] at hlen
    split at h
    · exact le_trans (le_trans (parseEscapedFieldName_length h) (Nat.le_succ _)) hlen
    · exact le_trans (parseSimpleFieldName_length h) hlen

theorem parseFieldStep_nextField_length {cs name rest : List Char}
    (h : parseFieldStep cs = .ok (name, .nextField, rest)) : rest.length < cs.length := by
  unfold parseFieldStep at h
  split at h
  · simp at h
  · rename_i n r hone
    split at h
    · simp at h
    · rename_i c rest2 hfind
      split at h
      · simp only [Except.ok.injEq, Prod.mk.injEq] at h
        obtain ⟨-, -, hr⟩ := h
        subst hr
        exact lt_of_lt_of_le (findNonWs_length hfind) (parseOneField_length hone)
      · split at h <;> simp at h

/-- The while loop of parse_column_name: parse fields while the ending says
another field follows; each parsed field is appended to the path. -/
def parseFieldsLoop (cs : List Char) (acc : List (List Char)) :
    Except ParseErr (List (List Char) × FieldEnding × List Char) :=
  match h : parseFieldStep cs with
  | .error e => .error e
  | .ok (name, .nextField, rest) => parseFieldsLoop rest (acc ++ [name])
  | .ok (name, .inputExhausted, rest) => .ok (acc ++ [name], .inputExhausted, rest)
  | .ok (name, .nextColumn, rest) => .ok (acc ++ [name], .nextColumn, rest)
termination_by cs.length
decreasing_by exact parseFieldStep_nextField_length h

/-- parse_column_name: skip leading whitespace; empty input is the empty
column name; a leading column separator is consumed and yields the empty
column name with more columns to follow; otherwise parse fields. -/
def parseColumnName (cs : List Char) :
    Except ParseErr (List (List Char) × FieldEnding × List Char) :=
  match dropLeadingWhitespace cs with
  | [] => .ok ([], .inputExhausted, [])
  | c :: rest =>
    if c = ',' then .ok ([], .nextColumn, rest)
    else parseFieldsLoop (c :: rest) []

/-- FromStr for ColumnName: parse one column name; an ending that announces
another column is the trailing-comma error. -/
def columnNameFromStr (cs : List Char) : Except ParseErr (List (List Char)) :=
  match parseColumnName cs with
  | .error e => .error e
  | .ok (_, .nextColumn, _) => .error .trailingComma
  | .ok (col, _, _) => .ok col

theorem not_ws_of_simple {c : Char} (h : isSimpleChar c = true) :
    isRustWhitespace c = false := by
  rw [Bool.eq_false_iff]
  intro hw
  simp only [isSimpleChar, Bool.or_eq_true, Bool.and_eq_true, decide_eq_true_eq,
    beq_iff_eq] at h
  simp only [isRustWhitespace, Bool.or_eq_true, Bool.and_eq_true, decide_eq_true_eq,
    beq_iff_eq] at hw
  omega

theorem digit_false_of_not_simple {c : Char} (h : isSimpleChar c = false) :
    isAsciiDigit c = false := by
  rw [Bool.eq_false_iff]
  intro hd
  rw [Bool.eq_false_iff] at h
  apply h
  simp only [isSimpleChar, Bool.or_eq_true, Bool.and_eq_true, decide_eq_true_eq,
    beq_iff_eq]
  simp only [isAsciiDigit, Bool.and_eq_true, decide_eq_true_eq] at hd
  omega

theorem dropWs_cons {c : Char} (l : List Char) (h : isRustWhitespace c = false) :
    dropLeadingWhitespace (c :: l) = c :: l := by
  simp [dropLeadingWhitespace, h]

theorem needsEscape_false {s : List Char} (h : needsEscape s = false) :
    s ≠ [] ∧ (∀ c, s.head? = some c → isAsciiDigit c = false) ∧
      ∀ c ∈ s, isSimpleChar c = true := by
  simp only [needsEscape, Bool.or_eq_false_iff] at h
  obtain ⟨⟨h1, h2⟩, h3⟩ := h
  refine ⟨by simpa using h1, ?_, ?_⟩
  · intro c hc
    rw [hc] at h2
    exact h2
  · intro c hc
    have := List.any_eq_false.mp h3 c hc
    simpa using this

/-- Parsing an escaped field back from its printed body: the doubled-escape
encoding followed by the closing escape character and any remainder that does
not start with the escape character. -/
theorem parseEscaped_roundtrip (s : List Char) :
    ∀ {r : List Char}, (∀ c, r.head? = some c → c ≠ '`') →
      parseEscapedFieldName (escapeChars s ++ '`' :: r) = .ok (s, r) := by
  induction s with
  | nil =>
    intro r hr
    cases r with
    | nil => rfl
    | cons a t =>
      have ha := hr a rfl
      simp only [escapeChars, List.nil_append]
      simp [parseEscapedFieldName, ha]
  | cons c s' ih =>
    intro r hr
    by_cases hc : c = '`'
    · subst hc
      simp only [escapeChars, List.cons_append]
      rw [show parseEscapedFieldName ('`' :: '`' :: (escapeChars s' ++ '`' :: r)) =
          (match parseEscapedFieldName (escapeChars s' ++ '`' :: r) with
            | .ok (n, r2) => .ok ('`' :: n, r2)
            | .error e => .error e) from rfl]
      rw [ih hr]
    · have hesc : escapeChars (c :: s') = c :: escapeChars s' := by
        simp [escapeChars, hc]
      rw [hesc, List.cons_append]
      have hp : parseEscapedFieldName (c :: (escapeChars s' ++ '`' :: r)) =
          match parseEscapedFieldName (escapeChars s' ++ '`' :: r) with
          | .ok (n, r2) => .ok (c :: n, r2)
          | .error e => .error e := by
        simp [parseEscapedFieldName, hc]
      rw [hp, ih hr]

theorem takeWhileSimple_append {s rest : List Char}
    (hs : ∀ c ∈ s, isSimpleChar c = true)
    (hr : ∀ c, rest.head? = some c → isSimpleChar c = false) :
    takeWhileSimple (s ++ rest) = (s, rest) := by
  induction s with
  | nil =>
    cases rest with
    | nil => rfl
    | cons a t =>
      have := hr a rfl
      simp [takeWhileSimple, this]
  | cons c s' ih =>
    have hc := hs c (by simp)
    have ihh := ih fun d hd => hs d (by simp [hd])
    simp [takeWhileSimple, hc, ihh]

theorem parseSimpleFieldName_print {s rest : List Char}
    (hs : ∀ c ∈ s, isSimpleChar c = true)
    (hd : ∀ c, s.head? = some c → isAsciiDigit c = false)
    (hr : ∀ c, rest.head? = some c → isSimpleChar c = false) :
    parseSimpleFieldName (s ++ rest) = .ok (s, rest) := by
  cases s with
  | nil =>
    cases rest with
    | nil => rfl
    | cons a t =>
      have ha := hr a rfl
      have had : isAsciiDigit a = false := digit_false_of_not_simple ha
      simp [parseSimpleFieldName, had, takeWhileSimple, ha]
  | cons c s' =>
    have hdc := hd c rfl
    have ht : takeWhileSimple (c :: (s' ++ rest)) = (c :: s', rest) := by
      simpa using takeWhileSimple_append hs hr
    simp [parseSimpleFieldName, hdc, ht]

theorem parseOneField_print {f rest : List Char}
    (hrest : rest.head? = none ∨ rest.head? = some '.') :
    parseOneField (printField f ++ rest) = .ok (f, rest) := by
  have hrs : ∀ c, rest.head? = some c → isSimpleChar c = false := by
    intro c hc
    rcases hrest with h | h
    · rw [h] at hc; cases hc
    · rw [h] at hc; cases hc; decide
  have hrb : ∀ c, rest.head? = some c → c ≠ '`' := by
    intro c hc
    rcases hrest with h | h
    · rw [h] at hc; cases hc
    · rw [h] at hc; cases hc; decide
  unfold printField
  by_cases he : needsEscape f
  · rw [if_pos he]
    have hsh : ('`' :: (escapeChars f ++ ['`'])) ++ rest =
        '`' :: (escapeChars f ++ '`' :: rest) := by simp
    rw [hsh]
    have hred : parseOneField ('`' :: (escapeChars f ++ '`' :: rest)) =
        parseEscapedFieldName (escapeChars f ++ '`' :: rest) := by
      unfold parseOneField
      rw [dropWs_cons _ (by decide)]
      simp
    rw [hred]
    exact parseEscaped_roundtrip f hrb
  · rw [if_neg he]
    obtain ⟨hne, hd, hs⟩ := needsEscape_false (Bool.eq_false_iff.mpr he)
    obtain ⟨c, s', rfl⟩ := List.exists_cons_of_ne_nil hne
    have hcs : isSimpleChar c = true := hs c (by simp)
    have hcw : isRustWhitespace c = false := not_ws_of_simple hcs
    have hcb : c ≠ '`' := by
      intro hceq
      rw [hceq] at hcs
      exact absurd hcs (by decide)
    have hred : parseOneField ((c :: s') ++ rest) =
        parseSimpleFieldName ((c :: s') ++ rest) := by
      unfold parseOneField
      rw [List.cons_append, dropWs_cons _ hcw]
      simp [hcb]
    rw [hred]
    exact parseSimpleFieldName_print hs hd hrs

theorem parseFieldStep_print_last (f : List Char) :
    parseFieldStep (printField f) = .ok (f, .inputExhausted, []) := by
  have h1 : parseOneField (printField f) = .ok (f, []) := by
    have := @parseOneField_print f [] (Or.inl rfl)
    simpa using this
  unfold parseFieldStep
  rw [h1]
  rfl

theorem parseFieldStep_print_dot (f rest' : List Char) :
    parseFieldStep (printField f ++ '.' :: rest') = .ok (f, .nextField, rest') := by
  have h1 : parseOneField (printField f ++ '.' :: rest') = .ok (f, '.' :: rest') :=
    parseOneField_print (Or.inr rfl)
  have h2 : findNonWs ('.' :: rest') = some ('.', rest') := by
    have hdot : isRustWhitespace '.' = false := by decide
    simp [findNonWs, hdot]
  unfold parseFieldStep
  rw [h1]
  simp only [h2]
  rfl

theorem parseFieldsLoop_print (fs : List (List Char)) :
    ∀ (f : List Char) (acc : List (List Char)),
      parseFieldsLoop (printColumnName (f :: fs)) acc =
        .ok (acc ++ f :: fs, .inputExhausted, []) := by
  induction fs with
  | nil =>
    intro f acc
    rw [show printColumnName [f] = printField f from rfl]
    unfold parseFieldsLoop
    rw [parseFieldStep_print_last f]
  | cons f2 fs' ih =>
    intro f acc
    rw [show printColumnName (f :: f2 :: fs') =
        printField f ++ '.' :: printColumnName (f2 :: fs') from rfl]
    unfold parseFieldsLoop
    rw [parseFieldStep_print_dot f (printColumnName (f2 :: fs'))]
    simp [ih]

theorem printField_head_shape (f : List Char) :
    ∃ c t, printField f = c :: t ∧ isRustWhitespace c = false ∧ c ≠ ',' := by
  unfold printField
  split
  · exact ⟨'`', _, rfl, by decide, by decide⟩
  · rename_i he
    obtain ⟨hne, hd, hs⟩ := needsEscape_false (Bool.eq_false_iff.mpr he)
    obtain ⟨c, s', rfl⟩ := List.exists_cons_of_ne_nil hne
    have hcs := hs c (by simp)
    refine ⟨c, s', rfl, not_ws_of_simple hcs, ?_⟩
    intro hceq
    rw [hceq] at hcs
    exact absurd hcs (by decide)

theorem columnNameFromStr_print (path : List (List Char)) :
    columnNameFromStr (printColumnName path) = .ok path := by
  cases path with
  | nil => rfl
  | cons f fs =>
    have hL : parseFieldsLoop (printColumnName (f :: fs)) [] =
        .ok (f :: fs, .inputExhausted, []) := by
      simpa using parseFieldsLoop_print fs f []
    obtain ⟨c, t, hpf, hws, hcomma⟩ := printField_head_shape f
    have hP : ∃ t2, printColumnName (f :: fs) = c :: t2 := by
      cases fs with
      | nil => exact ⟨t, by rw [show printColumnName [f] = printField f from rfl, hpf]⟩
      | cons f2 fs' =>
        refine ⟨t ++ '.' :: printColumnName (f2 :: fs'), ?_⟩
        rw [show printColumnName (f :: f2 :: fs') =
            printField f ++ '.' :: printColumnName (f2 :: fs') from rfl, hpf]
        simp
    obtain ⟨t2, hPe⟩ := hP
    have hPC : parseColumnName (printColumnName (f :: fs)) =
        .ok (f :: fs, .inputExhausted, []) := by
      unfold parseColumnName
      rw [hPe, dropWs_cons _ hws]
      simp only [if_neg hcomma]
      rw [← hPe]
      exact hL
    unfold columnNameFromStr
    rw [hPC]

/-- C3.  Column-name round-trip: for every column name (every finite sequence
of arbitrary finite field-name strings, including the empty sequence and
sequences containing empty strings), parsing the printed form returns exactly
the original; in particular the empty column name prints as the empty string,
and the empty string parses as the empty column name (zero fields). -/
theorem columnName_roundtrip :
    (∀ path, columnNameFromStr (printColumnName path) = .ok path) ∧
      printColumnName [] = [] ∧ columnNameFromStr [] = .ok [] :=
  ⟨columnNameFromStr_print, rfl, rfl⟩

/-- Every input to the escaped-field parser either decomposes as a doubled
body, a closing escape character and a remainder that does not begin with the
escape character (and then parsing succeeds with exactly that decomposition),
or parsing fails with the unterminated-escape error. -/
theorem parseEscapedFieldName_total (cs : List Char) :
    (∃ n r, parseEscapedFieldName cs = .ok (n, r) ∧ cs = escapeChars n ++ '`' :: r ∧
      ∀ c, r.head? = some c → c ≠ '`') ∨
    parseEscapedFieldName cs = .error .unterminatedEscape := by
  induction cs using parseEscapedFieldName.induct with
  | case1 => right; rfl
  | case2 rest n' r' hrec ih =>
    left
    rcases ih with ⟨n, r, hok, hdec, hr⟩ | herr
    · refine ⟨'`' :: n, r, ?_, ?_, hr⟩
      · rw [show parseEscapedFieldName ('`' :: '`' :: rest) =
            (match parseEscapedFieldName rest with
              | .ok (n2, r2) => .ok ('`' :: n2, r2)
              | .error e => .error e) from rfl, hok]
      · rw [show escapeChars ('`' :: n) = '`' :: '`' :: escapeChars n from rfl]
        simp [hdec]
    · rw [herr] at hrec
      cases hrec
  | case3 rest e hrec ih =>
    rcases ih with ⟨n, r, hok, hdec, hr⟩ | herr
    · rw [hok] at hrec
      cases hrec
    · right
      rw [show parseEscapedFieldName ('`' :: '`' :: rest) =
          (match parseEscapedFieldName rest with
            | .ok (n2, r2) => .ok ('`' :: n2, r2)
            | .error e2 => .error e2) from rfl, herr]
  | case4 rest hne =>
    left
    refine ⟨[], rest, ?_, rfl, ?_⟩
    · cases rest with
      | nil => rfl
      | cons a t =>
        have ha : a ≠ '`' := fun hc => hne t (by rw [hc])
        simp [parseEscapedFieldName, ha]
    · intro c hc hceq
      cases rest with
      | nil => cases hc
      | cons a t =>
        cases hc
        exact hne t (by rw [hceq])
  | case5 c rest h1 h2 n' r' hrec ih =>
    have hc : c ≠ '`' := fun hceq => h2 hceq
    left
    rcases ih with ⟨n, r, hok, hdec, hr⟩ | herr
    · refine ⟨c :: n, r, ?_, ?_, hr⟩
      · have hp : parseEscapedFieldName (c :: rest) =
            match parseEscapedFieldName rest with
            | .ok (n2, r2) => .ok (c :: n2, r2)
            | .error e => .error e := by
          simp [parseEscapedFieldName, hc]
        rw [hp, hok]
      · have he : escapeChars (c :: n) = c :: escapeChars n := by
          simp [escapeChars, hc]
        simp [he, hdec]
    · rw [herr] at hrec
      cases hrec
  | case6 c rest h1 h2 e hrec ih =>
    have hc : c ≠ '`' := fun hceq => h2 hceq
    rcases ih with ⟨n, r, hok, hdec, hr⟩ | herr
    · rw [hok] at hrec
      cases hrec
    · right
      have hp : parseEscapedFieldName (c :: rest) =
          match parseEscapedFieldName rest with
          | .ok (n2, r2) => .ok (c :: n2, r2)
          | .error e2 => .error e2 := by
        simp [parseEscapedFieldName, hc]
      rw [hp, herr]

/-- C9.  Column-name parse failures.  The escaped-field parser fails exactly
on inputs with no closing escape character (the failure is the unterminated
escape); the simple-field parser fails exactly on inputs starting with an
ASCII digit (the failure names that digit); a parse that ends announcing
another column makes FromStr fail with the trailing-comma error; concrete
vectors exercise the trailing-comma, invalid-character, leading-digit and
unterminated-escape failures; and every printed column name parses without
error. -/
theorem columnName_parse_failures :
    (∀ cs e, parseEscapedFieldName cs = .error e ↔
        (e = .unterminatedEscape ∧
          ¬ ∃ n r, cs = escapeChars n ++ '`' :: r ∧ ∀ c, r.head? = some c → c ≠ '`')) ∧
    (∀ cs e, parseSimpleFieldName cs = .error e ↔
        ∃ c t, cs = c :: t ∧ isAsciiDigit c = true ∧ e = .digitStart c) ∧
    (∀ cs col rest, parseColumnName cs = .ok (col, .nextColumn, rest) →
        columnNameFromStr cs = .error .trailingComma) ∧
    columnNameFromStr ['a', ','] = .error .trailingComma ∧
    columnNameFromStr ['a', ' ', 'b'] = .error (.invalidChar 'b' ['a']) ∧
    columnNameFromStr ['0'] = .error (.digitStart '0') ∧
    columnNameFromStr ['`', 'a'] = .error .unterminatedEscape ∧
    ∀ path, (columnNameFromStr (printColumnName path)).isOk = true := by
  refine ⟨?_, ?_, ?_, ?_, ?_, ?_, ?_, ?_⟩
  · intro cs e
    constructor
    · intro herr
      rcases parseEscapedFieldName_total cs with ⟨n, r, hok, hdec, hr⟩ | hunterm
      · rw [hok] at herr
        cases herr
      · rw [hunterm] at herr
        injection herr with he
        refine ⟨he.symm, ?_⟩
        rintro ⟨n, r, rfl, hr⟩
        rw [parseEscaped_roundtrip n hr] at hunterm
        cases hunterm
    · rintro ⟨rfl, hno⟩
      rcases parseEscapedFieldName_total cs with ⟨n, r, hok, hdec, hr⟩ | hunterm
      · exact absurd ⟨n, r, hdec, hr⟩ hno
      · exact hunterm
  · intro cs e
    cases cs with
    | nil =>
      simp only [parseSimpleFieldName]
      constructor
      · intro h; cases h
      · rintro ⟨c, t, h, -, -⟩; cases h
    | cons c t =>
      simp only [parseSimpleFieldName]
      constructor
      · intro h
        split at h
        · injection h with h2
          exact ⟨c, t, rfl, by assumption, h2.symm⟩
        · cases h
      · rintro ⟨c2, t2, heq, hd, rfl⟩
        obtain ⟨rfl, rfl⟩ : c = c2 ∧ t = t2 := by
          injection heq with h1 h2; exact ⟨h1, h2⟩
        rw [if_pos hd]
  · intro cs col rest h
    unfold columnNameFromStr
    rw [h]
  · simp [columnNameFromStr, parseColumnName, parseFieldsLoop, parseFieldStep,
      parseOneField, dropLeadingWhitespace, findNonWs, parseSimpleFieldName,
      takeWhileSimple, isRustWhitespace, isSimpleChar, isAsciiDigit]
  · simp [columnNameFromStr, parseColumnName, parseFieldsLoop, parseFieldStep,
      parseOneField, dropLeadingWhitespace, findNonWs, parseSimpleFieldName,
      takeWhileSimple, isRustWhitespace, isSimpleChar, isAsciiDigit]
  · simp [columnNameFromStr, parseColumnName, parseFieldsLoop, parseFieldStep,
      parseOneField, dropLeadingWhitespace, findNonWs, parseSimpleFieldName,
      takeWhileSimple, isRustWhitespace, isSimpleChar, isAsciiDigit]
  · simp [columnNameFromStr, parseColumnName, parseFieldsLoop, parseFieldStep,
      parseOneField, dropLeadingWhitespace, findNonWs, parseSimpleFieldName,
      parseEscapedFieldName, takeWhileSimple, isRustWhitespace, isSimpleChar,
      isAsciiDigit]
  · intro path
    rw [columnNameFromStr_print path]
    rfl

/-!
The log-replay scanner, src/kernel/src/scan/log_replay.rs.

Rust mutable state (the scanner's seen-set and the visitor's selection vector
and per-row transform list) is passed explicitly.  Engine-provided getters
can fail, so each getter of a row is modelled as the prescribed result of
calling it: an error or a value.  Collaborator code that lives outside the
embedded sources (partition-value parsing, the SQL-WHERE evaluator, the
deletion-vector id encoding, the data-skipping filter and the add-transform
evaluator) is held abstract in a context record.
-/

/-- The subset of file action fields that uniquely identifies it in the log
(FileActionKey). -/
structure FileActionKey where
  path : String
  dvUniqueId : Option String
deriving DecidableEq, Repr

/-- Abstract typed scalar value (crate::scan::Scalar); its internal structure
is irrelevant to replay logic. -/
structure Scalar where
  code : Nat
deriving DecidableEq, Repr

/-- Abstract Delta data type of a schema field. -/
structure DataTypeM where
  code : Nat
deriving DecidableEq, Repr

/-- Abstract physical predicate expression (the partition filter). -/
structure PredM where
  code : Nat
deriving DecidableEq, Repr

/-- A logical-schema field: its physical name and declared data type. -/
structure StructFieldM where
  physicalName : String
  dataType : DataTypeM
deriving DecidableEq, Repr

/-- Expressions, as far as the dedup visitor builds them: column references,
scalar literals, struct expressions, and anything else abstracted by a code. -/
inductive Expr where
  | column (name : List String) : Expr
  | literal (s : Scalar) : Expr
  | structOf (fields : List Expr) : Expr
  | other (code : Nat) : Expr

/-- TransformExpr: one element of a transform spec. -/
inductive TransformExpr where
  | Partition (fieldIdx : Nat) : TransformExpr
  | Static (e : Expr) : TransformExpr

/-- Errors of the replay path: InternalError with its message, or an
abstract engine/collaborator error identified by a code. -/
inductive Err where
  | internalError (msg : String) : Err
  | engine (code : Nat) : Err

/-- One row of an action batch, seen through the typed getters the visitor
requests.  Each field is the prescribed result of the corresponding getter
call: get_str and get_opt return an optional value or fail, plain get
returns a value or fails. -/
structure Row where
  addPath : Except Err (Option String)
  addPartitionValues : Except Err (List (String × String))
  addDvStorageType : Except Err (Option String)
  addDvPathOrInlineDv : Except Err String
  addDvOffset : Except Err (Option Int)
  removePath : Except Err (Option String)
  removeDvStorageType : Except Err (Option String)
  removeDvPathOrInlineDv : Except Err String
  removeDvOffset : Except Err (Option Int)

/-- An action batch tagged log (true) or checkpoint (false). -/
structure Batch where
  rows : List Row
  isLogBatch : Bool

/-- The collaborators of the log-replay core that live outside the embedded
sources, held abstract.

Modelled from the spec: parsePartitionValue stands for
scan::parse_partition_value (type-directed parsing of a raw partition string,
null for a missing key); evalSqlWhere stands for
DefaultPredicateEvaluator::eval_sql_where (the three-valued SQL WHERE
evaluator over a column-to-scalar map); uniqueIdFromParts stands for
DeletionVectorDescriptor::unique_id_from_parts (a canonical collision-free
encoding of storage type, path-or-inline and optional offset);
dataSkippingFilter stands for DataSkippingFilter::apply (none when no
physical predicate was configured); addTransformEval stands for the
engine-built add-transform ExpressionEvaluator::evaluate, its output batch
abstracted to an identifier. -/
structure Ctx where
  parsePartitionValue : Option String → DataTypeM → Except Err Scalar
  evalSqlWhere : PredM → List (List String × Scalar) → Option Bool
  uniqueIdFromParts : String → String → Option Int → String
  dataSkippingFilter : Option (List Row → List Bool)
  addTransformEval : List Row → Except Err Nat
  partitionFilter : Option PredM

/-- Per-batch configuration of the AddRemoveDedupVisitor. -/
structure VisitorCfg where
  logicalSchema : List StructFieldM
  transform : Option (List TransformExpr)
  partitionFilter : Option PredM
  isLogBatch : Bool

/-- The state the visitor mutates: the scanner's seen-set (borrowed) and the
per-row transform expressions. -/
structure MutState where
  seen : List FileActionKey
  rowTransformExprs : List (Option Expr)

/-- HashMap lookup keyed by field index. -/
def assocLookup (m : List (Nat × String × Scalar)) (k : Nat) : Option (String × Scalar) :=
  match m with
  | [] => none
  | (k2, v) :: rest => if k2 = k then some v else assocLookup rest k

/-- HashMap insert keyed by field index: replaces an existing entry. -/
def assocInsert (m : List (Nat × String × Scalar)) (k : Nat) (v : String × Scalar) :
    List (Nat × String × Scalar) :=
  match m with
  | [] => [(k, v)]
  | (k2, v2) :: rest => if k2 = k then (k, v) :: rest else (k2, v2) :: assocInsert rest k v

/-- HashMap remove keyed by field index: returns the removed value (if any)
and the map without it. -/
def assocRemove (m : List (Nat × String × Scalar)) (k : Nat) :
    Option (String × Scalar) × List (Nat × String × Scalar) :=
  match m with
  | [] => (none, [])
  | (k2, v) :: rest =>
    if k2 = k then (some v, rest)
    else ((assocRemove rest k).1, (k2, v) :: (assocRemove rest k).2)

/-- HashMap<String, String> lookup by physical field name. -/
def rawLookup (m : List (String × String)) (name : String) : Option String :=
  match m with
  | [] => none
  | (k, v) :: rest => if k = name then some v else rawLookup rest name

/-- parse_partition_value (the visitor method): look up the logical field by
index (out of range is an internal error), fetch the raw string by the
field's physical name, and parse it to a typed scalar. -/
def parsePartitionValueAt (ctx : Ctx) (cfg : VisitorCfg) (fieldIdx : Nat)
    (partitionValues : List (String × String)) : Except Err (Nat × String × Scalar) :=
  match cfg.logicalSchema.get? fieldIdx with
  | none => .error (.internalError "out of bounds partition column field index")
  | some field =>
    match ctx.parsePartitionValue (rawLookup partitionValues field.physicalName)
        field.dataType with
    | .error e => .error e
    | .ok v => .ok (fieldIdx, field.physicalName, v)

/-- parse_partition_values: parse every Partition element of the transform
spec, collecting the results into a map keyed by field index (as the
try_collect into a HashMap does, a later entry replacing an earlier one). -/
def parsePartitionValuesGo (ctx : Ctx) (cfg : VisitorCfg)
    (partitionValues : List (String × String)) :
    List TransformExpr → List (Nat × String × Scalar) →
      Except Err (List (Nat × String × Scalar))
  | [], acc => .ok acc
  | TransformExpr.Partition idx :: rest, acc =>
    match parsePartitionValueAt ctx cfg idx partitionValues with
    | .error e => .error e
    | .ok (k, nv) => parsePartitionValuesGo ctx cfg partitionValues rest (assocInsert acc k nv)
  | TransformExpr.Static _ :: rest, acc => parsePartitionValuesGo ctx cfg partitionValues rest acc

def parsePartitionValues (ctx : Ctx) (cfg : VisitorCfg) (t : List TransformExpr)
    (partitionValues : List (String × String)) : Except Err (List (Nat × String × Scalar)) :=
  parsePartitionValuesGo ctx cfg partitionValues t []

/-- get_transform_expr, element part: every Partition element is replaced by
the literal of its parsed scalar (removed from the map as the source does),
every Static element by its expression; a Partition index missing from the
map is an internal error. -/
def getTransformExprGo : List TransformExpr → List (Nat × String × Scalar) →
    Except Err (List Expr)
  | [], _ => .ok []
  | TransformExpr.Partition idx :: rest, pv =>
    match assocRemove pv idx with
    | (none, _) => .error (.internalError "missing partition value for field index")
    | (some (_, scalar), pv2) =>
      match getTransformExprGo rest pv2 with
      | .error e => .error e
      | .ok es => .ok (Expr.literal scalar :: es)
  | TransformExpr.Static e :: rest, pv =>
    match getTransformExprGo rest pv with
    | .error e2 => .error e2
    | .ok es => .ok (e :: es)

/-- get_transform_expr: the per-row physical-to-logical transform, a struct
expression over the resolved elements. -/
def getTransformExpr (t : List TransformExpr) (pv : List (Nat × String × Scalar)) :
    Except Err Expr :=
  match getTransformExprGo t pv with
  | .error e => .error e
  | .ok es => .ok (Expr.structOf es)

/-- is_file_partition_pruned: an empty parsed partition-values map or an
absent partition filter keeps the file; otherwise the file is pruned exactly
when the SQL-WHERE evaluator over the one-level column map returns a
definitive false. -/
def isFilePartitionPruned (ctx : Ctx) (cfg : VisitorCfg)
    (partitionValues : List (Nat × String × Scalar)) : Bool :=
  if partitionValues.isEmpty then false
  else
    match cfg.partitionFilter with
    | none => false
    | some filt =>
      ctx.evalSqlWhere filt (partitionValues.map fun e => ([e.2.1], e.2.2)) == some false

/-- check_and_record_seen: true when the key was already seen (ignore the
action); otherwise record it, but only for log batches, since checkpoint
actions are already the oldest and never replace anything. -/
def checkAndRecordSeen (cfg : VisitorCfg) (st : MutState) (key : FileActionKey) :
    Bool × MutState :=
  if key ∈ st.seen then (true, st)
  else (false, if cfg.isLogBatch then { st with seen := key :: st.seen } else st)

/-- Classify a row: an Add when the add path is present; otherwise, in log
batches only, a Remove when the remove path is present; otherwise not a file
action.  Returns the path, the three deletion-vector getters to read next,
and the is_add flag. -/
def classifyRow (cfg : VisitorCfg) (row : Row) :
    Except Err (Option (String × Except Err (Option String) × Except Err String ×
      Except Err (Option Int) × Bool)) :=
  match row.addPath with
  | .error e => .error e
  | .ok (some path) =>
    .ok (some (path, row.addDvStorageType, row.addDvPathOrInlineDv, row.addDvOffset, true))
  | .ok none =>
    if !cfg.isLogBatch then .ok none
    else
      match row.removePath with
      | .error e => .error e
      | .ok (some path) =>
        .ok (some (path, row.removeDvStorageType, row.removeDvPathOrInlineDv,
          row.removeDvOffset, false))
      | .ok none => .ok none

/-- dv_unique_id computation: when a storage type is present, the path-or-
inline getter (plain get, fails on null) and the optional offset are read and
combined by the canonical encoding; an absent storage type means no deletion
vector. -/
def computeDvUniqueId (ctx : Ctx) (stype : Except Err (Option String))
    (pinline : Except Err String) (off : Except Err (Option Int)) :
    Except Err (Option String) :=
  match stype with
  | .error e => .error e
  | .ok none => .ok none
  | .ok (some storageType) =>
    match pinline with
    | .error e => .error e
    | .ok pathOrInlineDv =>
      match off with
      | .error e => .error e
      | .ok offset => .ok (some (ctx.uniqueIdFromParts storageType pathOrInlineDv offset))

/-- The partition parsing and pruning applied to Adds only (the match on
self.transform guarded by is_add): parse the partition values and drop the
file (result none) when pruned; Removes and rows without a transform spec
use the empty map. -/
def parseAndPrune (ctx : Ctx) (cfg : VisitorCfg) (isAdd : Bool) (row : Row) :
    Except Err (Option (List (Nat × String × Scalar))) :=
  match cfg.transform, isAdd with
  | some t, true =>
    match row.addPartitionValues with
    | .error e => .error e
    | .ok rawPvs =>
      match parsePartitionValues ctx cfg t rawPvs with
      | .error e => .error e
      | .ok parsed =>
        if isFilePartitionPruned ctx cfg parsed then .ok none else .ok (some parsed)
  | _, _ => .ok (some [])

/-- resize_with(i, Default::default) on the row-transform list: truncate or
right-pad with none to length i. -/
def resizeWithNone (l : List (Option Expr)) (n : Nat) : List (Option Expr) :=
  if l.length ≥ n then l.take n else l ++ List.replicate (n - l.length) none

/-- is_valid_add: true when row i contains an Add action that should survive
log replay.  Mutations of the seen-set and the transform list persist even
when an error is returned, as they do through the Rust mutable borrow. -/
def isValidAdd (ctx : Ctx) (cfg : VisitorCfg) (i : Nat) (row : Row) (st : MutState) :
    Except Err Bool × MutState :=
  match classifyRow cfg row with
  | .error e => (.error e, st)
  | .ok none => (.ok false, st)
  | .ok (some (path, dvTy, dvPi, dvOff, isAdd)) =>
    match computeDvUniqueId ctx dvTy dvPi dvOff with
    | .error e => (.error e, st)
    | .ok dvUniqueId =>
      match parseAndPrune ctx cfg isAdd row with
      | .error e => (.error e, st)
      | .ok none => (.ok false, st)
      | .ok (some partitionValues) =>
        match checkAndRecordSeen cfg st (FileActionKey.mk path dvUniqueId) with
        | (true, st1) => (.ok false, st1)
        | (false, st1) =>
          if !isAdd then (.ok false, st1)
          else
            match cfg.transform with
            | none => (.ok true, st1)
            | some t =>
              match getTransformExpr t partitionValues with
              | .error e => (.error e, st1)
              | .ok texpr =>
                (.ok true, { st1 with
                  rowTransformExprs := resizeWithNone st1.rowTransformExprs i ++ [some texpr] })

/-- The row loop of RowVisitor::visit: a row is examined only when its entry
of the selection vector is true, and that entry is overwritten with the
is_valid_add result; an error aborts the loop (state mutations persist). -/
def visitRowsGo (ctx : Ctx) (cfg : VisitorCfg) :
    List Row → List Bool → Nat → MutState → Except Err (List Bool) × MutState
  | [], sv, _, st => (.ok sv, st)
  | _ :: _, [], _, st => (.error (.internalError "selection vector shorter than the batch"), st)
  | row :: rows, b :: bs, i, st =>
    if b then
      match isValidAdd ctx cfg i row st with
      | (.error e, st1) => (.error e, st1)
      | (.ok b2, st1) =>
        match visitRowsGo ctx cfg rows bs (i + 1) st1 with
        | (.ok svRest, st2) => (.ok (b2 :: svRest), st2)
        | (.error e, st2) => (.error e, st2)
    else
      match visitRowsGo ctx cfg rows bs (i + 1) st with
      | (.ok svRest, st2) => (.ok (b :: svRest), st2)
      | (.error e, st2) => (.error e, st2)

/-- RowVisitor::visit: the getter-count check (9 getters for a log batch,
5 for a checkpoint batch, anything else an internal error), then the row
loop. -/
def visitModel (ctx : Ctx) (cfg : VisitorCfg) (numGetters : Nat) (rows : List Row)
    (sv : List Bool) (st : MutState) : Except Err (List Bool) × MutState :=
  if numGetters ≠ (if cfg.isLogBatch then 9 else 5) then
    (.error (.internalError "Wrong number of AddRemoveDedupVisitor getters"), st)
  else visitRowsGo ctx cfg rows sv 0 st

/-- The selection vector computed before dedup: the data-skipping filter's
output, or all-true of the batch's length when no filter is configured. -/
def initialSelection (ctx : Ctx) (b : Batch) : List Bool :=
  match ctx.dataSkippingFilter with
  | some f => f b.rows
  | none => List.replicate b.rows.length true

/-- Per-scan configuration shared across batches. -/
structure BatchCfg where
  logicalSchema : List StructFieldM
  transform : Option (List TransformExpr)

/-- The visitor configuration process_scan_batch builds for one batch: the
scan's logical schema and transform spec, the scanner's partition filter
(cloned per batch), and the batch's log/checkpoint tag. -/
def batchVisitorCfg (ctx : Ctx) (bcfg : BatchCfg) (b : Batch) : VisitorCfg :=
  ⟨bcfg.logicalSchema, bcfg.transform, ctx.partitionFilter, b.isLogBatch⟩

/-- LogReplayScanner::process_scan_batch: compute the initial selection (the
assert of equal lengths modelled as an error), run the dedup visitor with the
borrowed seen-set and a fresh transform list, evaluate the add-transform over
all rows, and return (scan rows, refined selection, row transforms).  The
seen-set is returned separately since its mutations survive errors. -/
def processScanBatch (ctx : Ctx) (bcfg : BatchCfg) (seen : List FileActionKey) (b : Batch) :
    Except Err (Nat × List Bool × List (Option Expr)) × List FileActionKey :=
  if (initialSelection ctx b).length ≠ b.rows.length then
    (.error (.internalError "selection vector length mismatch"), seen)
  else
    match visitModel ctx (batchVisitorCfg ctx bcfg b) (if b.isLogBatch then 9 else 5)
        b.rows (initialSelection ctx b) ⟨seen, []⟩ with
    | (.error e, st) => (.error e, st.seen)
    | (.ok sv2, st) =>
      match ctx.addTransformEval b.rows with
      | .error e => (.error e, st.seen)
      | .ok result => (.ok (result, sv2, st.rowTransformExprs), st.seen)

/-- scan_action_iter's mapping of process_scan_batch over the newest-first
batch stream, threading the scanner's seen-set (errors do not halt the
stream and do not reset state).  The iterator's final filter that drops
all-false batches is an optimization downstream of these per-batch results. -/
def replayBatches (ctx : Ctx) (bcfg : BatchCfg) (seen : List FileActionKey) :
    List Batch → List (Except Err (Nat × List Bool × List (Option Expr))) × List FileActionKey
  | [] => ([], seen)
  | b :: bs =>
    let pr := processScanBatch ctx bcfg seen b
    let rest := replayBatches ctx bcfg pr.2 bs
    (pr.1 :: rest.1, rest.2)

/-- The file-action key is_valid_add computes for a row it classifies as an
Add (the add path present and the deletion-vector getters succeeding). -/
def rowAddKey (ctx : Ctx) (row : Row) : Option FileActionKey :=
  match row.addPath with
  | .ok (some path) =>
    match computeDvUniqueId ctx row.addDvStorageType row.addDvPathOrInlineDv
        row.addDvOffset with
    | .ok dv => some ⟨path, dv⟩
    | .error _ => none
  | _ => none

/-- The file-action key is_valid_add computes for a row it classifies as a
Remove (no add path, the remove path present, the deletion-vector getters
succeeding). -/
def rowRemoveKey (ctx : Ctx) (row : Row) : Option FileActionKey :=
  match row.addPath, row.removePath with
  | .ok none, .ok (some path) =>
    match computeDvUniqueId ctx row.removeDvStorageType row.removeDvPathOrInlineDv
        row.removeDvOffset with
    | .ok dv => some ⟨path, dv⟩
    | .error _ => none
  | _, _ => none

theorem checkAndRecordSeen_seen_cases (cfg : VisitorCfg) (st : MutState)
    (key : FileActionKey) :
    (checkAndRecordSeen cfg st key).2.seen = st.seen ∨
      (cfg.isLogBatch = true ∧ (checkAndRecordSeen cfg st key).2.seen = key :: st.seen) := by
  unfold checkAndRecordSeen
  split
  · left; rfl
  · rcases hlog : cfg.isLogBatch with _ | _
    · left; simp [hlog]
    · right; exact ⟨rfl, by simp [hlog]⟩

theorem checkAndRecordSeen_seen_mono {k : FileActionKey} (cfg : VisitorCfg) (st : MutState)
    (key : FileActionKey) (h : k ∈ st.seen) :
    k ∈ (checkAndRecordSeen cfg st key).2.seen := by
  rcases checkAndRecordSeen_seen_cases cfg st key with hc | ⟨-, hc⟩ <;> rw [hc]
  · exact h
  · exact List.mem_cons_of_mem _ h

theorem checkAndRecordSeen_key_mem (cfg : VisitorCfg) (st : MutState) (key : FileActionKey)
    (hlog : cfg.isLogBatch = true) : key ∈ (checkAndRecordSeen cfg st key).2.seen := by
  unfold checkAndRecordSeen
  split
  · assumption
  · simp [hlog]

theorem checkAndRecordSeen_rowTransform (cfg : VisitorCfg) (st : MutState)
    (key : FileActionKey) :
    (checkAndRecordSeen cfg st key).2.rowTransformExprs = st.rowTransformExprs := by
  unfold checkAndRecordSeen
  split
  · rfl
  · split <;> rfl

theorem checkAndRecordSeen_checkpoint (cfg : VisitorCfg) (st : MutState)
    (key : FileActionKey) (h : cfg.isLogBatch = false) :
    (checkAndRecordSeen cfg st key).2 = st := by
  unfold checkAndRecordSeen
  split
  · rfl
  · simp [h]

theorem checkAndRecordSeen_fst (cfg : VisitorCfg) (st : MutState) (key : FileActionKey) :
    (checkAndRecordSeen cfg st key).1 = decide (key ∈ st.seen) := by
  unfold checkAndRecordSeen
  split <;> simp_all

theorem parseAndPrune_not_add (ctx : Ctx) (cfg : VisitorCfg) (row : Row) :
    parseAndPrune ctx cfg false row = .ok (some []) := by
  unfold parseAndPrune
  cases cfg.transform <;> rfl

theorem rowAddKey_elim {ctx : Ctx} {row : Row} {k : FileActionKey}
    (h : rowAddKey ctx row = some k) :
    ∃ path dv, row.addPath = .ok (some path) ∧
      computeDvUniqueId ctx row.addDvStorageType row.addDvPathOrInlineDv
        row.addDvOffset = .ok dv ∧ k = ⟨path, dv⟩ := by
  unfold rowAddKey at h
  split at h
  · rename_i path heq
    split at h
    · rename_i dv hdv
      cases h
      exact ⟨path, dv, heq, hdv, rfl⟩
    · cases h
  · cases h

theorem rowRemoveKey_elim {ctx : Ctx} {row : Row} {k : FileActionKey}
    (h : rowRemoveKey ctx row = some k) :
    row.addPath = .ok none ∧ ∃ path dv, row.removePath = .ok (some path) ∧
      computeDvUniqueId ctx row.removeDvStorageType row.removeDvPathOrInlineDv
        row.removeDvOffset = .ok dv ∧ k = ⟨path, dv⟩ := by
  unfold rowRemoveKey at h
  split at h
  · rename_i path heqa heqr
    split at h
    · rename_i dv hdv
      cases h
      exact ⟨heqa, path, dv, heqr, hdv, rfl⟩
    · cases h
  · cases h

/-- A Remove row of a log batch is consumed, never emitted: is_valid_add
returns false, and the only state change is the recording of its key. -/
theorem isValidAdd_remove {ctx : Ctx} {cfg : VisitorCfg} {i : Nat} {row : Row}
    {st : MutState} {k : FileActionKey}
    (hlog : cfg.isLogBatch = true) (hk : rowRemoveKey ctx row = some k) :
    isValidAdd ctx cfg i row st = (.ok false, (checkAndRecordSeen cfg st k).2) := by
  obtain ⟨hadd, path, dv, hrem, hdv, rfl⟩ := rowRemoveKey_elim hk
  unfold isValidAdd classifyRow
  rw [hadd, hlog]
  simp only [Bool.not_true, Bool.false_eq_true, if_false]
  rw [hrem]
  simp only [hdv, parseAndPrune_not_add]
  rcases hc : checkAndRecordSeen cfg st ⟨path, dv⟩ with ⟨b1, st1⟩
  simp only [hc]
  cases b1 <;> rfl

/-- An Add row whose key is already in the seen-set never survives, and
leaves the state untouched. -/
theorem isValidAdd_add_seen {ctx : Ctx} {cfg : VisitorCfg} {i : Nat} {row : Row}
    {st : MutState} {k : FileActionKey} {b : Bool} {st1 : MutState}
    (hk : rowAddKey ctx row = some k) (hmem : k ∈ st.seen)
    (h : isValidAdd ctx cfg i row st = (.ok b, st1)) : b = false ∧ st1 = st := by
  obtain ⟨path, dv, hadd, hdv, rfl⟩ := rowAddKey_elim hk
  unfold isValidAdd classifyRow at h
  rw [hadd] at h
  simp only [hdv] at h
  rcases hpp : parseAndPrune ctx cfg true row with e | o
  · simp only [hpp] at h
    simp only [Prod.mk.injEq] at h
    exact absurd h.1 (by simp)
  · cases o with
    | none =>
      simp only [hpp, Prod.mk.injEq, Except.ok.injEq] at h
      exact ⟨h.1.symm, h.2.symm⟩
    | some pv =>
      simp only [hpp] at h
      rw [show checkAndRecordSeen cfg st ⟨path, dv⟩ = (true, st) from by
        unfold checkAndRecordSeen; rw [if_pos hmem]] at h
      simp only [Prod.mk.injEq, Except.ok.injEq] at h
      exact ⟨h.1.symm, h.2.symm⟩

/-- The seen-set after one row is either unchanged or extended with exactly
one key, and extension happens only in log batches. -/
theorem isValidAdd_seen_shape (ctx : Ctx) (cfg : VisitorCfg) (i : Nat) (row : Row)
    (st : MutState) :
    (isValidAdd ctx cfg i row st).2.seen = st.seen ∨
      (cfg.isLogBatch = true ∧
        ∃ key, (isValidAdd ctx cfg i row st).2.seen = key :: st.seen) := by
  unfold isValidAdd
  split
  · left; rfl
  · left; rfl
  · next path dvTy dvPi dvOff isAdd heqc =>
    split
    · left; rfl
    · next dvId hdv =>
      split
      · left; rfl
      · left; rfl
      · next pv hpp =>
        rcases hcr : checkAndRecordSeen cfg st ⟨path, dvId⟩ with ⟨b1, st1⟩
        have hshape := checkAndRecordSeen_seen_cases cfg st ⟨path, dvId⟩
        rw [hcr] at hshape
        cases b1 <;> simp only [hcr] <;> (try split) <;> (try split) <;> (try split) <;>
          (try split) <;>
          exact hshape.imp id fun h => ⟨h.1, _, h.2⟩

theorem isValidAdd_seen_mono {k : FileActionKey} (ctx : Ctx) (cfg : VisitorCfg) (i : Nat)
    (row : Row) (st : MutState) (hk : k ∈ st.seen) :
    k ∈ (isValidAdd ctx cfg i row st).2.seen := by
  rcases isValidAdd_seen_shape ctx cfg i row st with hc | ⟨-, key, hc⟩ <;> rw [hc]
  · exact hk
  · exact List.mem_cons_of_mem _ hk

theorem isValidAdd_checkpoint_seen (ctx : Ctx) (cfg : VisitorCfg) (i : Nat) (row : Row)
    (st : MutState) (h : cfg.isLogBatch = false) :
    (isValidAdd ctx cfg i row st).2.seen = st.seen := by
  rcases isValidAdd_seen_shape ctx cfg i row st with hc | ⟨hlog, -, -⟩
  · exact hc
  · rw [h] at hlog
    cases hlog

theorem visitRowsGo_seen_mono {k : FileActionKey} (ctx : Ctx) (cfg : VisitorCfg) :
    ∀ (rows : List Row) (sv : List Bool) (i : Nat) (st : MutState)
      (res : Except Err (List Bool)) (st2 : MutState),
      visitRowsGo ctx cfg rows sv i st = (res, st2) → k ∈ st.seen → k ∈ st2.seen := by
  intro rows
  induction rows with
  | nil =>
    intro sv i st res st2 h hk
    simp only [visitRowsGo, Prod.mk.injEq] at h
    rw [← h.2]
    exact hk
  | cons row rows ih =>
    intro sv i st res st2 h hk
    cases sv with
    | nil =>
      simp only [visitRowsGo, Prod.mk.injEq] at h
      rw [← h.2]
      exact hk
    | cons b bs =>
      simp only [visitRowsGo] at h
      split at h
      · split at h
        · next e st1 heq =>
          simp only [Prod.mk.injEq] at h
          rw [← h.2]
          have := isValidAdd_seen_mono ctx cfg i row st hk
          rw [heq] at this
          exact this
        · next b2 st1 heq =>
          have hk1 : k ∈ st1.seen := by
            have := isValidAdd_seen_mono ctx cfg i row st hk
            rw [heq] at this
            exact this
          split at h
          · next svRest st2x hrec =>
            simp only [Prod.mk.injEq] at h
            rw [← h.2]
            exact ih bs (i + 1) st1 _ st2x hrec hk1
          · next e st2x hrec =>
            simp only [Prod.mk.injEq] at h
            rw [← h.2]
            exact ih bs (i + 1) st1 _ st2x hrec hk1
      · split at h
        · next svRest st2x hrec =>
          simp only [Prod.mk.injEq] at h
          rw [← h.2]
          exact ih bs (i + 1) st _ st2x hrec hk
        · next e st2x hrec =>
          simp only [Prod.mk.injEq] at h
          rw [← h.2]
          exact ih bs (i + 1) st _ st2x hrec hk

theorem visitRowsGo_ok_length (ctx : Ctx) (cfg : VisitorCfg) :
    ∀ (rows : List Row) (sv : List Bool) (i : Nat) (st : MutState) (sv2 : List Bool)
      (st2 : MutState), visitRowsGo ctx cfg rows sv i st = (.ok sv2, st2) →
      sv2.length = sv.length := by
  intro rows
  induction rows with
  | nil =>
    intro sv i st sv2 st2 h
    simp only [visitRowsGo, Prod.mk.injEq, Except.ok.injEq] at h
    rw [h.1]
  | cons row rows ih =>
    intro sv i st sv2 st2 h
    cases sv with
    | nil =>
      simp only [visitRowsGo, Prod.mk.injEq] at h
      exact absurd h.1 (by simp)
    | cons b bs =>
      simp only [visitRowsGo] at h
      split at h
      · split at h
        · simp only [Prod.mk.injEq] at h
          exact absurd h.1 (by simp)
        · next b2 st1 heq =>
          split at h
          · next svRest st2x hrec =>
            simp only [Prod.mk.injEq, Except.ok.injEq] at h
            rw [← h.1]
            simp [ih bs (i + 1) st1 svRest st2x hrec]
          · simp only [Prod.mk.injEq] at h
            exact absurd h.1 (by simp)
      · split at h
        · next svRest st2x hrec =>
          simp only [Prod.mk.injEq, Except.ok.injEq] at h
          rw [← h.1]
          simp [ih bs (i + 1) st svRest st2x hrec]
        · simp only [Prod.mk.injEq] at h
          exact absurd h.1 (by simp)

theorem visitRowsGo_le (ctx : Ctx) (cfg : VisitorCfg) :
    ∀ (rows : List Row) (sv : List Bool) (i : Nat) (st : MutState) (sv2 : List Bool)
      (st2 : MutState), visitRowsGo ctx cfg rows sv i st = (.ok sv2, st2) →
      ∀ j, sv2.get? j = some true → sv.get? j = some true := by
  intro rows
  induction rows with
  | nil =>
    intro sv i st sv2 st2 h j hj
    simp only [visitRowsGo, Prod.mk.injEq, Except.ok.injEq] at h
    rw [h.1]
    exact hj
  | cons row rows ih =>
    intro sv i st sv2 st2 h j hj
    cases sv with
    | nil =>
      simp only [visitRowsGo, Prod.mk.injEq] at h
      exact absurd h.1 (by simp)
    | cons b bs =>
      simp only [visitRowsGo] at h
      split at h
      · next hb =>
        split at h
        · simp only [Prod.mk.injEq] at h
          exact absurd h.1 (by simp)
        · next b2 st1 heq =>
          split at h
          · next svRest st2x hrec =>
            simp only [Prod.mk.injEq, Except.ok.injEq] at h
            rw [← h.1] at hj
            cases j with
            | zero => simp [hb]
            | succ j =>
              simp only [List.get?_cons_succ] at hj ⊢
              exact ih bs (i + 1) st1 svRest st2x hrec j hj
          · simp only [Prod.mk.injEq] at h
            exact absurd h.1 (by simp)
      · split at h
        · next svRest st2x hrec =>
          simp only [Prod.mk.injEq, Except.ok.injEq] at h
          rw [← h.1] at hj
          cases j with
          | zero => simpa using hj
          | succ j =>
            simp only [List.get?_cons_succ] at hj ⊢
            exact ih bs (i + 1) st svRest st2x hrec j hj
        · simp only [Prod.mk.injEq] at h
          exact absurd h.1 (by simp)

theorem visitRowsGo_remove_deselected (ctx : Ctx) (cfg : VisitorCfg)
    (hlog : cfg.isLogBatch = true) :
    ∀ (rows : List Row) (sv : List Bool) (i : Nat) (st : MutState) (sv2 : List Bool)
      (st2 : MutState), visitRowsGo ctx cfg rows sv i st = (.ok sv2, st2) →
      ∀ j row k, rows.get? j = some row → rowRemoveKey ctx row = some k →
        sv2.get? j = some false := by
  intro rows
  induction rows with
  | nil =>
    intro sv i st sv2 st2 h j row k hrow hk
    simp at hrow
  | cons row0 rows ih =>
    intro sv i st sv2 st2 h j row k hrow hk
    cases sv with
    | nil =>
      simp only [visitRowsGo, Prod.mk.injEq] at h
      exact absurd h.1 (by simp)
    | cons b bs =>
      simp only [visitRowsGo] at h
      split at h
      · next hb =>
        split at h
        · simp only [Prod.mk.injEq] at h
          exact absurd h.1 (by simp)
        · next b2 st1 heq =>
          split at h
          · next svRest st2x hrec =>
            simp only [Prod.mk.injEq, Except.ok.injEq] at h
            rw [← h.1]
            cases j with
            | zero =>
              simp only [List.get?_cons_zero, Option.some.injEq] at hrow
              subst hrow
              rw [isValidAdd_remove hlog hk] at heq
              simp only [Prod.mk.injEq, Except.ok.injEq] at heq
              rw [← heq.1]
              rfl
            | succ j =>
              simp only [List.get?_cons_succ] at hrow ⊢
              exact ih bs (i + 1) st1 svRest st2x hrec j row k hrow hk
          · simp only [Prod.mk.injEq] at h
            exact absurd h.1 (by simp)
      · next hb =>
        split at h
        · next svRest st2x hrec =>
          simp only [Prod.mk.injEq, Except.ok.injEq] at h
          rw [← h.1]
          cases j with
          | zero =>
            simp only [List.get?_cons_zero, Option.some.injEq]
            cases hbv : b
            · rfl
            · rw [hbv] at hb
              exact absurd rfl hb
          | succ j =>
            simp only [List.get?_cons_succ] at hrow ⊢
            exact ih bs (i + 1) st svRest st2x hrec j row k hrow hk
        · simp only [Prod.mk.injEq] at h
          exact absurd h.1 (by simp)

theorem visitRowsGo_remove_records (ctx : Ctx) (cfg : VisitorCfg)
    (hlog : cfg.isLogBatch = true) :
    ∀ (rows : List Row) (sv : List Bool) (i : Nat) (st : MutState) (sv2 : List Bool)
      (st2 : MutState), visitRowsGo ctx cfg rows sv i st = (.ok sv2, st2) →
      ∀ j row k, rows.get? j = some row → rowRemoveKey ctx row = some k →
        sv.get? j = some true → k ∈ st2.seen := by
  intro rows
  induction rows with
  | nil =>
    intro sv i st sv2 st2 h j row k hrow hk hsel
    simp at hrow
  | cons row0 rows ih =>
    intro sv i st sv2 st2 h j row k hrow hk hsel
    cases sv with
    | nil =>
      simp only [visitRowsGo, Prod.mk.injEq] at h
      exact absurd h.1 (by simp)
    | cons b bs =>
      simp only [visitRowsGo] at h
      split at h
      · next hb =>
        split at h
        · simp only [Prod.mk.injEq] at h
          exact absurd h.1 (by simp)
        · next b2 st1 heq =>
          split at h
          · next svRest st2x hrec =>
            simp only [Prod.mk.injEq, Except.ok.injEq] at h
            cases j with
            | zero =>
              simp only [List.get?_cons_zero, Option.some.injEq] at hrow
              subst hrow
              rw [isValidAdd_remove hlog hk] at heq
              simp only [Prod.mk.injEq, Except.ok.injEq] at heq
              have hk1 : k ∈ st1.seen := by
                rw [← heq.2]
                exact checkAndRecordSeen_key_mem cfg st k hlog
              rw [← h.2]
              exact visitRowsGo_seen_mono ctx cfg rows bs (i + 1) st1 _ st2x hrec hk1
            | succ j =>
              simp only [List.get?_cons_succ] at hrow hsel
              rw [← h.2]
              exact ih bs (i + 1) st1 svRest st2x hrec j row k hrow hk hsel
          · simp only [Prod.mk.injEq] at h
            exact absurd h.1 (by simp)
      · next hb =>
        split at h
        · next svRest st2x hrec =>
          simp only [Prod.mk.injEq, Except.ok.injEq] at h
          cases j with
          | zero =>
            simp only [List.get?_cons_zero, Option.some.injEq] at hsel
            rw [hsel] at hb
            exact absurd rfl hb
          | succ j =>
            simp only [List.get?_cons_succ] at hrow hsel
            rw [← h.2]
            exact ih bs (i + 1) st svRest st2x hrec j row k hrow hk hsel
        · simp only [Prod.mk.injEq] at h
          exact absurd h.1 (by simp)

theorem visitRowsGo_seen_suppresses {k : FileActionKey} (ctx : Ctx) (cfg : VisitorCfg) :
    ∀ (rows : List Row) (sv : List Bool) (i : Nat) (st : MutState) (sv2 : List Bool)
      (st2 : MutState), k ∈ st.seen →
      visitRowsGo ctx cfg rows sv i st = (.ok sv2, st2) →
      ∀ j row, rows.get? j = some row → rowAddKey ctx row = some k →
        sv2.get? j = some false := by
  intro rows
  induction rows with
  | nil =>
    intro sv i st sv2 st2 hmem h j row hrow hk
    simp at hrow
  | cons row0 rows ih =>
    intro sv i st sv2 st2 hmem h j row hrow hk
    cases sv with
    | nil =>
      simp only [visitRowsGo, Prod.mk.injEq] at h
      exact absurd h.1 (by simp)
    | cons b bs =>
      simp only [visitRowsGo] at h
      split at h
      · next hb =>
        split at h
        · simp only [Prod.mk.injEq] at h
          exact absurd h.1 (by simp)
        · next b2 st1 heq =>
          have hmem1 : k ∈ st1.seen := by
            have := isValidAdd_seen_mono ctx cfg i row0 st hmem
            rw [heq] at this
            exact this
          split at h
          · next svRest st2x hrec =>
            simp only [Prod.mk.injEq, Except.ok.injEq] at h
            rw [← h.1]
            cases j with
            | zero =>
              simp only [List.get?_cons_zero, Option.some.injEq] at hrow
              subst hrow
              obtain ⟨hb2, -⟩ := isValidAdd_add_seen hk hmem heq
              rw [hb2]
              rfl
            | succ j =>
              simp only [List.get?_cons_succ] at hrow ⊢
              exact ih bs (i + 1) st1 svRest st2x hmem1 hrec j row hrow hk
          · simp only [Prod.mk.injEq] at h
            exact absurd h.1 (by simp)
      · next hb =>
        split at h
        · next svRest st2x hrec =>
          simp only [Prod.mk.injEq, Except.ok.injEq] at h
          rw [← h.1]
          cases j with
          | zero =>
            simp only [List.get?_cons_zero, Option.some.injEq]
            cases hbv : b
            · rfl
            · rw [hbv] at hb
              exact absurd rfl hb
          | succ j =>
            simp only [List.get?_cons_succ] at hrow ⊢
            exact ih bs (i + 1) st svRest st2x hmem hrec j row hrow hk
        · simp only [Prod.mk.injEq] at h
          exact absurd h.1 (by simp)

theorem visitRowsGo_checkpoint_seen (ctx : Ctx) (cfg : VisitorCfg)
    (hcp : cfg.isLogBatch = false) :
    ∀ (rows : List Row) (sv : List Bool) (i : Nat) (st : MutState)
      (res : Except Err (List Bool)) (st2 : MutState),
      visitRowsGo ctx cfg rows sv i st = (res, st2) → st2.seen = st.seen := by
  intro rows
  induction rows with
  | nil =>
    intro sv i st res st2 h
    simp only [visitRowsGo, Prod.mk.injEq] at h
    rw [← h.2]
  | cons row rows ih =>
    intro sv i st res st2 h
    cases sv with
    | nil =>
      simp only [visitRowsGo, Prod.mk.injEq] at h
      rw [← h.2]
    | cons b bs =>
      simp only [visitRowsGo] at h
      split at h
      · split at h
        · next e st1 heq =>
          simp only [Prod.mk.injEq] at h
          rw [← h.2]
          have := isValidAdd_checkpoint_seen ctx cfg i row st hcp
          rw [heq] at this
          exact this
        · next b2 st1 heq =>
          have hst1 : st1.seen = st.seen := by
            have := isValidAdd_checkpoint_seen ctx cfg i row st hcp
            rw [heq] at this
            exact this
          split at h
          · next svRest st2x hrec =>
            simp only [Prod.mk.injEq] at h
            rw [← h.2]
            exact (ih bs (i + 1) st1 _ st2x hrec).trans hst1
          · next e st2x hrec =>
            simp only [Prod.mk.injEq] at h
            rw [← h.2]
            exact (ih bs (i + 1) st1 _ st2x hrec).trans hst1
      · split at h
        · next svRest st2x hrec =>
          simp only [Prod.mk.injEq] at h
          rw [← h.2]
          exact ih bs (i + 1) st _ st2x hrec
        · next e st2x hrec =>
          simp only [Prod.mk.injEq] at h
          rw [← h.2]
          exact ih bs (i + 1) st _ st2x hrec

theorem visitModel_run (ctx : Ctx) (bcfg : BatchCfg) (b : Batch) (sv : List Bool)
    (st : MutState) :
    visitModel ctx (batchVisitorCfg ctx bcfg b) (if b.isLogBatch then 9 else 5)
        b.rows sv st =
      visitRowsGo ctx (batchVisitorCfg ctx bcfg b) b.rows sv 0 st := by
  unfold visitModel
  rw [if_neg (by simp [batchVisitorCfg])]

theorem processScanBatch_ok_elim {ctx : Ctx} {bcfg : BatchCfg} {seen : List FileActionKey}
    {b : Batch} {n : Nat} {sv2 : List Bool} {t : List (Option Expr)}
    {seen2 : List FileActionKey}
    (h : processScanBatch ctx bcfg seen b = (.ok (n, sv2, t), seen2)) :
    (initialSelection ctx b).length = b.rows.length ∧
      ∃ st2 : MutState,
        visitRowsGo ctx (batchVisitorCfg ctx bcfg b) b.rows (initialSelection ctx b) 0
            ⟨seen, []⟩ = (.ok sv2, st2) ∧ st2.seen = seen2 ∧ t = st2.rowTransformExprs := by
  unfold processScanBatch at h
  split at h
  · simp only [Prod.mk.injEq] at h
    exact absurd h.1 (by simp)
  · next hlen =>
    have hlen2 : (initialSelection ctx b).length = b.rows.length := by
      by_contra hne
      exact hlen hne
    rw [visitModel_run] at h
    split at h
    · simp only [Prod.mk.injEq] at h
      exact absurd h.1 (by simp)
    · next sv2x st heq =>
      split at h
      · simp only [Prod.mk.injEq] at h
        exact absurd h.1 (by simp)
      · next result hres =>
        simp only [Prod.mk.injEq, Except.ok.injEq] at h
        obtain ⟨⟨-, hsv, ht⟩, hseen⟩ := h
        refine ⟨hlen2, st, ?_, hseen, ht.symm⟩
        rw [← hsv]
        exact heq

theorem processScanBatch_err_seen_mono {k : FileActionKey} (ctx : Ctx) (bcfg : BatchCfg)
    (seen : List FileActionKey) (b : Batch) (hk : k ∈ seen) :
    k ∈ (processScanBatch ctx bcfg seen b).2 := by
  unfold processScanBatch
  split
  · exact hk
  · rw [visitModel_run]
    split
    · next e st heq =>
      exact visitRowsGo_seen_mono ctx _ b.rows _ 0 ⟨seen, []⟩ _ st heq hk
    · next sv2 st heq =>
      have := visitRowsGo_seen_mono ctx _ b.rows _ 0 ⟨seen, []⟩ _ st heq hk
      split <;> exact this

theorem processScanBatch_checkpoint_seen (ctx : Ctx) (bcfg : BatchCfg)
    (seen : List FileActionKey) (b : Batch) (hcp : b.isLogBatch = false) :
    (processScanBatch ctx bcfg seen b).2 = seen := by
  have hcfg : (batchVisitorCfg ctx bcfg b).isLogBatch = false := hcp
  unfold processScanBatch
  split
  · rfl
  · rw [visitModel_run]
    split
    · next e st heq =>
      exact visitRowsGo_checkpoint_seen ctx _ hcfg b.rows _ 0 ⟨seen, []⟩ _ st heq
    · next sv2 st heq =>
      have := visitRowsGo_checkpoint_seen ctx _ hcfg b.rows _ 0 ⟨seen, []⟩ _ st heq
      split <;> exact this

theorem processScanBatch_length {ctx : Ctx} {bcfg : BatchCfg} {seen : List FileActionKey}
    {b : Batch} {n : Nat} {sv2 : List Bool} {t : List (Option Expr)}
    {seen2 : List FileActionKey}
    (h : processScanBatch ctx bcfg seen b = (.ok (n, sv2, t), seen2)) :
    sv2.length = b.rows.length ∧ (initialSelection ctx b).length = b.rows.length := by
  obtain ⟨hlen, st2, hv, -, -⟩ := processScanBatch_ok_elim h
  exact ⟨(visitRowsGo_ok_length _ _ _ _ _ _ _ _ hv).trans hlen, hlen⟩

theorem processScanBatch_le {ctx : Ctx} {bcfg : BatchCfg} {seen : List FileActionKey}
    {b : Batch} {n : Nat} {sv2 : List Bool} {t : List (Option Expr)}
    {seen2 : List FileActionKey}
    (h : processScanBatch ctx bcfg seen b = (.ok (n, sv2, t), seen2)) :
    ∀ j, sv2.get? j = some true → (initialSelection ctx b).get? j = some true := by
  obtain ⟨-, st2, hv, -, -⟩ := processScanBatch_ok_elim h
  exact visitRowsGo_le _ _ _ _ _ _ _ _ hv

theorem processScanBatch_suppresses {ctx : Ctx} {bcfg : BatchCfg}
    {seen : List FileActionKey} {b : Batch} {n : Nat} {sv2 : List Bool}
    {t : List (Option Expr)} {seen2 : List FileActionKey} {k : FileActionKey}
    (hk : k ∈ seen)
    (h : processScanBatch ctx bcfg seen b = (.ok (n, sv2, t), seen2)) :
    ∀ j row, b.rows.get? j = some row → rowAddKey ctx row = some k →
      sv2.get? j = some false := by
  obtain ⟨-, st2, hv, -, -⟩ := processScanBatch_ok_elim h
  exact visitRowsGo_seen_suppresses _ _ _ _ _ _ _ _ hk hv

theorem processScanBatch_remove {ctx : Ctx} {bcfg : BatchCfg} {seen : List FileActionKey}
    {b : Batch} {n : Nat} {sv2 : List Bool} {t : List (Option Expr)}
    {seen2 : List FileActionKey} {i : Nat} {row : Row} {k : FileActionKey}
    (hlog : b.isLogBatch = true)
    (h : processScanBatch ctx bcfg seen b = (.ok (n, sv2, t), seen2))
    (hrow : b.rows.get? i = some row) (hk : rowRemoveKey ctx row = some k) :
    sv2.get? i = some false ∧
      ((initialSelection ctx b).get? i = some true → k ∈ seen2) := by
  have hcfg : (batchVisitorCfg ctx bcfg b).isLogBatch = true := hlog
  obtain ⟨-, st2, hv, hseen, -⟩ := processScanBatch_ok_elim h
  constructor
  · exact visitRowsGo_remove_deselected _ _ hcfg _ _ _ _ _ _ hv i row k hrow hk
  · intro hsel
    rw [← hseen]
    exact visitRowsGo_remove_records _ _ hcfg _ _ _ _ _ _ hv i row k hrow hk hsel

theorem replayBatches_cons (ctx : Ctx) (bcfg : BatchCfg) (seen : List FileActionKey)
    (b : Batch) (bs : List Batch) :
    replayBatches ctx bcfg seen (b :: bs) =
      ((processScanBatch ctx bcfg seen b).1 ::
        (replayBatches ctx bcfg (processScanBatch ctx bcfg seen b).2 bs).1,
        (replayBatches ctx bcfg (processScanBatch ctx bcfg seen b).2 bs).2) := rfl

theorem replayBatches_length (ctx : Ctx) (bcfg : BatchCfg) :
    ∀ (bs : List Batch) (seen : List FileActionKey),
      (replayBatches ctx bcfg seen bs).1.length = bs.length := by
  intro bs
  induction bs with
  | nil => intro seen; rfl
  | cons b bs ih =>
    intro seen
    rw [replayBatches_cons]
    simp [ih]

theorem replayBatches_seen_mono {k : FileActionKey} (ctx : Ctx) (bcfg : BatchCfg) :
    ∀ (bs : List Batch) (seen : List FileActionKey), k ∈ seen →
      k ∈ (replayBatches ctx bcfg seen bs).2 := by
  intro bs
  induction bs with
  | nil => intro seen hk; exact hk
  | cons b bs ih =>
    intro seen hk
    rw [replayBatches_cons]
    exact ih _ (processScanBatch_err_seen_mono ctx bcfg seen b hk)

theorem replayBatches_append (ctx : Ctx) (bcfg : BatchCfg) :
    ∀ (xs ys : List Batch) (seen : List FileActionKey),
      (replayBatches ctx bcfg seen (xs ++ ys)).1 =
        (replayBatches ctx bcfg seen xs).1 ++
          (replayBatches ctx bcfg (replayBatches ctx bcfg seen xs).2 ys).1 ∧
      (replayBatches ctx bcfg seen (xs ++ ys)).2 =
        (replayBatches ctx bcfg (replayBatches ctx bcfg seen xs).2 ys).2 := by
  intro xs
  induction xs with
  | nil => intro ys seen; exact ⟨rfl, rfl⟩
  | cons x xs ih =>
    intro ys seen
    rw [List.cons_append, replayBatches_cons, replayBatches_cons]
    obtain ⟨h1, h2⟩ := ih ys (processScanBatch ctx bcfg seen x).2
    constructor
    · simp only [List.cons_append]
      rw [h1]
    · exact h2

theorem replayBatches_get (ctx : Ctx) (bcfg : BatchCfg) :
    ∀ (bs : List Batch) (seen : List FileActionKey) (j : Nat) (bj : Batch),
      bs.get? j = some bj →
      ∃ seenJ, (replayBatches ctx bcfg seen bs).1.get? j =
          some (processScanBatch ctx bcfg seenJ bj).1 ∧
        (∀ k, k ∈ seen → k ∈ seenJ) := by
  intro bs
  induction bs with
  | nil =>
    intro seen j bj hj
    simp at hj
  | cons b bs ih =>
    intro seen j bj hj
    rw [replayBatches_cons]
    cases j with
    | zero =>
      simp only [List.get?_cons_zero, Option.some.injEq] at hj
      subst hj
      exact ⟨seen, by simp, fun k hk => hk⟩
    | succ j =>
      simp only [List.get?_cons_succ] at hj
      obtain ⟨seenJ, hres, hmono⟩ := ih (processScanBatch ctx bcfg seen b).2 j bj hj
      exact ⟨seenJ, by simpa using hres,
        fun k hk => hmono k (processScanBatch_err_seen_mono ctx bcfg seen b hk)⟩

theorem replayBatches_suppresses {k : FileActionKey} (ctx : Ctx) (bcfg : BatchCfg) :
    ∀ (bs : List Batch) (seen : List FileActionKey), k ∈ seen →
      ∀ (j : Nat) (bj : Batch) (n : Nat) (sv : List Bool) (t : List (Option Expr)),
        bs.get? j = some bj →
        (replayBatches ctx bcfg seen bs).1.get? j = some (.ok (n, sv, t)) →
        ∀ (i : Nat) (row : Row), bj.rows.get? i = some row →
          rowAddKey ctx row = some k → sv.get? i = some false := by
  intro bs
  induction bs with
  | nil =>
    intro seen hk j bj n sv t hj hres i row hrow hka
    simp at hj
  | cons b bs ih =>
    intro seen hk j bj n sv t hj hres i row hrow hka
    rw [replayBatches_cons] at hres
    cases j with
    | zero =>
      simp only [List.get?_cons_zero, Option.some.injEq] at hj hres
      subst hj
      have hpair : processScanBatch ctx bcfg seen b = (.ok (n, sv, t),
          (processScanBatch ctx bcfg seen b).2) := by
        rw [← hres]
      exact processScanBatch_suppresses hk hpair i row hrow hka
    | succ j =>
      simp only [List.get?_cons_succ] at hj hres
      exact ih (processScanBatch ctx bcfg seen b).2
        (processScanBatch_err_seen_mono ctx bcfg seen b hk) j bj n sv t hj hres i row
        hrow hka

/-- C1.  Tombstone semantics of log-replay deduplication: in a newest-first
replay, a log batch's Remove row (initially selected, so that the dedup
visitor examines it) is itself never emitted, and no Add with the same
file-action key in any strictly older batch survives in the output selection
vector, provided every batch of the replay processes without error. -/
theorem tombstone_across_batches
    (ctx : Ctx) (bcfg : BatchCfg) (batches : List Batch)
    (j j2 i i2 : Nat) (bj bj2 : Batch) (rowR rowA : Row) (k : FileActionKey)
    (hok : ∀ r ∈ (replayBatches ctx bcfg [] batches).1, ∃ v, r = .ok v)
    (hj : batches.get? j = some bj) (hlog : bj.isLogBatch = true)
    (hrowR : bj.rows.get? i = some rowR) (hkR : rowRemoveKey ctx rowR = some k)
    (hsel : (initialSelection ctx bj).get? i = some true)
    (hlt : j < j2) (hj2 : batches.get? j2 = some bj2)
    (hrowA : bj2.rows.get? i2 = some rowA) (hkA : rowAddKey ctx rowA = some k) :
    (∀ n sv t, (replayBatches ctx bcfg [] batches).1.get? j = some (.ok (n, sv, t)) →
      sv.get? i = some false) ∧
    ∀ n sv t, (replayBatches ctx bcfg [] batches).1.get? j2 = some (.ok (n, sv, t)) →
      sv.get? i2 = some false := by
  have hjlen : j < batches.length := by
    rcases List.get?_eq_some.mp hj with ⟨hl, -⟩
    exact hl
  have hdropj : batches.drop j = bj :: batches.drop (j + 1) := by
    rcases List.get?_eq_some.mp hj with ⟨hl, hget⟩
    rw [List.drop_eq_get_cons hl, hget]
  have hlen1 : (replayBatches ctx bcfg [] (batches.take j)).1.length = j := by
    rw [replayBatches_length]
    simp [List.length_take]
    omega
  have hR1 : (replayBatches ctx bcfg [] batches).1 =
      (replayBatches ctx bcfg [] (batches.take j)).1 ++
        (replayBatches ctx bcfg (replayBatches ctx bcfg [] (batches.take j)).2
          (batches.drop j)).1 := by
    conv_lhs => rw [← List.take_append_drop j batches]
    exact (replayBatches_append ctx bcfg _ _ []).1
  set seenT := (replayBatches ctx bcfg [] (batches.take j)).2 with hseenT
  have hRj : (replayBatches ctx bcfg [] batches).1.get? j =
      some (processScanBatch ctx bcfg seenT bj).1 := by
    rw [hR1, List.get?_append_right (by omega), hlen1, Nat.sub_self, hdropj,
      replayBatches_cons]
    simp
  -- the result at index j is ok, so the remove's key lands in the seen-set
  have hokj : ∃ v, (processScanBatch ctx bcfg seenT bj).1 = .ok v := by
    have hmem := List.get?_mem hRj
    exact hok _ hmem
  rcases hokj with ⟨⟨n0, sv0, t0⟩, hv0⟩
  have hpair0 : processScanBatch ctx bcfg seenT bj =
      (.ok (n0, sv0, t0), (processScanBatch ctx bcfg seenT bj).2) := by
    rw [← hv0]
  have hkin : k ∈ (processScanBatch ctx bcfg seenT bj).2 :=
    (processScanBatch_remove hlog hpair0 hrowR hkR).2 hsel
  constructor
  · intro n sv t hres
    rw [hRj] at hres
    injection hres with hres
    have hpair : processScanBatch ctx bcfg seenT bj =
        (.ok (n, sv, t), (processScanBatch ctx bcfg seenT bj).2) := by
      rw [← hres]
    exact (processScanBatch_remove hlog hpair hrowR hkR).1
  · intro n sv t hres
    have hRj2 : (replayBatches ctx bcfg [] batches).1.get? j2 =
        (replayBatches ctx bcfg (processScanBatch ctx bcfg seenT bj).2
          (batches.drop (j + 1))).1.get? (j2 - (j + 1)) := by
      rw [hR1, List.get?_append_right (by omega), hlen1]
      rw [hdropj, replayBatches_cons]
      have : j2 - j = (j2 - (j + 1)) + 1 := by omega
      rw [this]
      simp
    have hbj2 : (batches.drop (j + 1)).get? (j2 - (j + 1)) = some bj2 := by
      rw [List.get?_drop]
      rw [show j + 1 + (j2 - (j + 1)) = j2 from by omega]
      exact hj2
    rw [hRj2] at hres
    exact replayBatches_suppresses ctx bcfg (batches.drop (j + 1))
      (processScanBatch ctx bcfg seenT bj).2 hkin (j2 - (j + 1)) bj2 n sv t hbj2 hres
      i2 rowA hrowA hkA

/-- A concrete replay context whose abstract collaborators are trivial: the
partition-value parser always succeeds, the SQL-WHERE evaluator is
indeterminate, no data-skipping filter and no partition filter are
configured. -/
def ctx0 : Ctx where
  parsePartitionValue := fun _ _ => .ok ⟨0⟩
  evalSqlWhere := fun _ _ => none
  uniqueIdFromParts := fun a b _ => a ++ b
  dataSkippingFilter := none
  addTransformEval := fun _ => .ok 0
  partitionFilter := none

/-- A scan configuration with an empty logical schema and no transform. -/
def bcfg0 : BatchCfg := ⟨[], none⟩

/-- A row carrying only an Add with the given path and no deletion vector. -/
def addRow (p : String) : Row :=
  ⟨.ok (some p), .ok [], .ok none, .ok "", .ok none, .ok none, .ok none, .ok "", .ok none⟩

/-- A row carrying only a Remove with the given path and no deletion
vector. -/
def removeRow (p : String) : Row :=
  ⟨.ok none, .ok [], .ok none, .ok "", .ok none, .ok (some p), .ok none, .ok "", .ok none⟩

theorem tombstone_across_batches_witness :
    (∀ n sv t, (replayBatches ctx0 bcfg0 []
        [⟨[removeRow "p"], true⟩, ⟨[addRow "p"], true⟩]).1.get? 0 =
        some (.ok (n, sv, t)) → sv.get? 0 = some false) ∧
    ∀ n sv t, (replayBatches ctx0 bcfg0 []
        [⟨[removeRow "p"], true⟩, ⟨[addRow "p"], true⟩]).1.get? 1 =
        some (.ok (n, sv, t)) → sv.get? 0 = some false := by
  refine tombstone_across_batches ctx0 bcfg0 _ 0 1 0 0 _ _ (removeRow "p") (addRow "p")
    ⟨"p", none⟩ ?_ rfl rfl rfl rfl rfl (by omega) rfl rfl rfl
  intro r hr
  have hres : (replayBatches ctx0 bcfg0 []
      [⟨[removeRow "p"], true⟩, ⟨[addRow "p"], true⟩]).1 =
      [.ok (0, [false], []), .ok (0, [false], [])] := by rfl
  rw [hres] at hr
  simp only [List.mem_cons, List.not_mem_nil, or_false] at hr
  rcases hr with rfl | rfl
  · exact ⟨_, rfl⟩
  · exact ⟨_, rfl⟩

/-- C2.  Checkpoint non-shadowing: processing a checkpoint batch never
inserts into the seen-set; consequently two checkpoint batches each holding
an Add with the same key both surface (each selected), while a log-batch
Remove with that key processed before both suppresses both. -/
theorem checkpoint_non_shadowing :
    (∀ (ctx : Ctx) (bcfg : BatchCfg) (seen : List FileActionKey) (b : Batch),
        b.isLogBatch = false → (processScanBatch ctx bcfg seen b).2 = seen) ∧
    (replayBatches ctx0 bcfg0 [] [⟨[addRow "p"], false⟩, ⟨[addRow "p"], false⟩]).1 =
      [.ok (0, [true], []), .ok (0, [true], [])] ∧
    (replayBatches ctx0 bcfg0 []
        [⟨[removeRow "p"], true⟩, ⟨[addRow "p"], false⟩, ⟨[addRow "p"], false⟩]).1 =
      [.ok (0, [false], []), .ok (0, [false], []), .ok (0, [false], [])] := by
  refine ⟨?_, rfl, rfl⟩
  intro ctx bcfg seen b hcp
  exact processScanBatch_checkpoint_seen ctx bcfg seen b hcp

/-- C5.  Pruning asymmetry: a Remove row of a log batch always reaches the
deduplication step.  The result of is_valid_add on such a row is exactly
(false, the state after recording its key): the partition filter and the
row's partition values play no part, the key is in the seen-set afterwards,
and the per-row transform list is untouched. -/
theorem removes_not_pruned
    (ctx : Ctx) (cfg : VisitorCfg) (i : Nat) (row : Row) (st : MutState)
    (k : FileActionKey)
    (hlog : cfg.isLogBatch = true) (hk : rowRemoveKey ctx row = some k) :
    isValidAdd ctx cfg i row st = (.ok false, (checkAndRecordSeen cfg st k).2) ∧
      k ∈ (isValidAdd ctx cfg i row st).2.seen ∧
      (isValidAdd ctx cfg i row st).2.rowTransformExprs = st.rowTransformExprs := by
  have h := @isValidAdd_remove ctx cfg i row st k hlog hk
  refine ⟨h, ?_, ?_⟩
  · rw [h]
    exact checkAndRecordSeen_key_mem cfg st k hlog
  · rw [h]
    exact checkAndRecordSeen_rowTransform cfg st k

theorem removes_not_pruned_witness :
    isValidAdd ctx0 ⟨[], none, none, true⟩ 0 (removeRow "p") ⟨[], []⟩ =
        (.ok false, (checkAndRecordSeen ⟨[], none, none, true⟩ ⟨[], []⟩ ⟨"p", none⟩).2) ∧
      (⟨"p", none⟩ : FileActionKey) ∈
        (isValidAdd ctx0 ⟨[], none, none, true⟩ 0 (removeRow "p") ⟨[], []⟩).2.seen ∧
      (isValidAdd ctx0 ⟨[], none, none, true⟩ 0 (removeRow "p") ⟨[], []⟩).2.rowTransformExprs =
        (⟨[], []⟩ : MutState).rowTransformExprs :=
  removes_not_pruned ctx0 ⟨[], none, none, true⟩ 0 (removeRow "p") ⟨[], []⟩
    ⟨"p", none⟩ rfl rfl

/-- C6.  Three-valued partition pruning: a file is pruned exactly when the
parsed partition-values map is nonempty, a partition filter is configured,
and the SQL-WHERE evaluator over the one-level column map returns a
definitive false; an empty map or an absent filter always keeps the file;
and a pruned Add is deselected without any state change. -/
theorem partition_pruning_three_valued :
    (∀ (ctx : Ctx) (cfg : VisitorCfg) (pv : List (Nat × String × Scalar)),
        isFilePartitionPruned ctx cfg pv = true ↔
          pv ≠ [] ∧ ∃ f, cfg.partitionFilter = some f ∧
            ctx.evalSqlWhere f (pv.map fun e => ([e.2.1], e.2.2)) = some false) ∧
    (∀ (ctx : Ctx) (cfg : VisitorCfg), isFilePartitionPruned ctx cfg [] = false) ∧
    (∀ (ctx : Ctx) (cfg : VisitorCfg) (pv : List (Nat × String × Scalar)),
        cfg.partitionFilter = none → isFilePartitionPruned ctx cfg pv = false) ∧
    ∀ (ctx : Ctx) (cfg : VisitorCfg) (i : Nat) (row : Row) (st : MutState)
      (t : List TransformExpr) (rawPvs : List (String × String))
      (parsed : List (Nat × String × Scalar)) (k : FileActionKey),
      cfg.transform = some t → rowAddKey ctx row = some k →
      row.addPartitionValues = .ok rawPvs →
      parsePartitionValues ctx cfg t rawPvs = .ok parsed →
      isFilePartitionPruned ctx cfg parsed = true →
      isValidAdd ctx cfg i row st = (.ok false, st) := by
  refine ⟨?_, ?_, ?_, ?_⟩
  · intro ctx cfg pv
    unfold isFilePartitionPruned
    constructor
    · intro h
      split at h
      · cases h
      · split at h
        · cases h
        · next f hf =>
          refine ⟨by simpa [List.isEmpty_iff] using ‹¬pv.isEmpty = true›, f, hf, ?_⟩
          simpa using h
    · rintro ⟨hne, f, hf, hev⟩
      rw [if_neg (by simpa [List.isEmpty_iff] using hne), hf]
      simpa using hev
  · intro ctx cfg
    rfl
  · intro ctx cfg pv hf
    unfold isFilePartitionPruned
    split
    · rfl
    · rw [hf]
  · intro ctx cfg i row st t rawPvs parsed k htr hk hraw hparse hpruned
    obtain ⟨path, dv, hadd, hdv, rfl⟩ := rowAddKey_elim hk
    unfold isValidAdd classifyRow
    rw [hadd]
    simp only [hdv]
    have hpp : parseAndPrune ctx cfg true row = .ok none := by
      unfold parseAndPrune
      rw [htr, hraw]
      simp only [hparse]
      rw [if_pos hpruned]
    simp only [hpp]

/-- C8.  Selection-vector length invariant: when a batch processes
successfully, the initial selection vector has the batch's row count as its
length (and is all-true when no data-skipping filter is configured), and the
refined selection vector returned with the scan data has that same length. -/
theorem selection_vector_length
    (ctx : Ctx) (bcfg : BatchCfg) (seen : List FileActionKey) (b : Batch)
    (n : Nat) (sv2 : List Bool) (t : List (Option Expr)) (seen2 : List FileActionKey)
    (h : processScanBatch ctx bcfg seen b = (.ok (n, sv2, t), seen2)) :
    (initialSelection ctx b).length = b.rows.length ∧
      sv2.length = b.rows.length ∧
      (ctx.dataSkippingFilter = none →
        initialSelection ctx b = List.replicate b.rows.length true) := by
  obtain ⟨h1, h2⟩ := processScanBatch_length h
  refine ⟨h2, h1, ?_⟩
  intro hnone
  unfold initialSelection
  rw [hnone]

theorem selection_vector_length_witness :
    (initialSelection ctx0 ⟨[addRow "p"], true⟩).length =
        (Batch.mk [addRow "p"] true).rows.length ∧
      [true].length = (Batch.mk [addRow "p"] true).rows.length ∧
      (ctx0.dataSkippingFilter = none →
        initialSelection ctx0 ⟨[addRow "p"], true⟩ =
          List.replicate (Batch.mk [addRow "p"] true).rows.length true) :=
  selection_vector_length ctx0 bcfg0 [] ⟨[addRow "p"], true⟩ 0 [true] []
    [⟨"p", none⟩] rfl

/-- C10.  Selection refinement is monotone: the dedup visitor only turns
entries of the selection vector from true to false (an entry true in the
refined vector was true in the incoming vector, both at the visitor's row
loop and at the batch level against the initial data-skipping selection);
a row whose incoming entry is false is never examined and never
re-selected. -/
theorem selection_refinement_monotone :
    (∀ (ctx : Ctx) (cfg : VisitorCfg) (rows : List Row) (sv : List Bool) (i : Nat)
        (st : MutState) (sv2 : List Bool) (st2 : MutState),
        visitRowsGo ctx cfg rows sv i st = (.ok sv2, st2) →
        ∀ j, sv2.get? j = some true → sv.get? j = some true) ∧
    ∀ (ctx : Ctx) (bcfg : BatchCfg) (seen : List FileActionKey) (b : Batch)
      (n : Nat) (sv2 : List Bool) (t : List (Option Expr)) (seen2 : List FileActionKey),
      processScanBatch ctx bcfg seen b = (.ok (n, sv2, t), seen2) →
      ∀ j, sv2.get? j = some true → (initialSelection ctx b).get? j = some true :=
  ⟨fun ctx cfg rows sv i st sv2 st2 h => visitRowsGo_le ctx cfg rows sv i st sv2 st2 h,
    fun _ _ _ _ _ _ _ _ h => processScanBatch_le h⟩

/-- The Partition field indices of a transform spec, in order. -/
def partitionIdxs (t : List TransformExpr) : List Nat :=
  t.filterMap fun te => match te with
    | .Partition idx => some idx
    | .Static _ => none

theorem partitionIdxs_partition_cons (k : Nat) (rest : List TransformExpr) :
    partitionIdxs (.Partition k :: rest) = k :: partitionIdxs rest := rfl

theorem partitionIdxs_static_cons (e : Expr) (rest : List TransformExpr) :
    partitionIdxs (.Static e :: rest) = partitionIdxs rest := rfl

theorem mem_partitionIdxs_of_get? {t : List TransformExpr} {j : Nat} {idx : Nat}
    (h : t.get? j = some (.Partition idx)) : idx ∈ partitionIdxs t := by
  have hmem := List.get?_mem h
  exact List.mem_filterMap.mpr ⟨.Partition idx, hmem, rfl⟩

theorem assocLookup_insert_self (m : List (Nat × String × Scalar)) (k : Nat)
    (v : String × Scalar) : assocLookup (assocInsert m k v) k = some v := by
  induction m with
  | nil => simp [assocInsert, assocLookup]
  | cons hd tl ih =>
    rcases hd with ⟨k2, v2⟩
    by_cases hk : k2 = k
    · subst hk
      simp [assocInsert, assocLookup]
    · simp [assocInsert, assocLookup, hk, ih]

theorem assocLookup_insert_ne (m : List (Nat × String × Scalar)) (k : Nat)
    (v : String × Scalar) (k' : Nat) (h : k' ≠ k) :
    assocLookup (assocInsert m k v) k' = assocLookup m k' := by
  induction m with
  | nil => simp [assocInsert, assocLookup, Ne.symm h]
  | cons hd tl ih =>
    rcases hd with ⟨k2, v2⟩
    by_cases hk : k2 = k
    · subst hk
      simp [assocInsert, assocLookup, Ne.symm h]
    · simp [assocInsert, assocLookup, hk, ih]

theorem assocRemove_fst (m : List (Nat × String × Scalar)) (k : Nat) :
    (assocRemove m k).1 = assocLookup m k := by
  induction m with
  | nil => rfl
  | cons hd tl ih =>
    rcases hd with ⟨k2, v⟩
    by_cases hk : k2 = k
    · simp [assocRemove, assocLookup, hk]
    · simp [assocRemove, assocLookup, hk, ih]

theorem assocLookup_remove_ne (m : List (Nat × String × Scalar)) (k k' : Nat)
    (h : k' ≠ k) : assocLookup (assocRemove m k).2 k' = assocLookup m k' := by
  induction m with
  | nil => rfl
  | cons hd tl ih =>
    rcases hd with ⟨k2, v⟩
    by_cases hk : k2 = k
    · subst hk
      simp [assocRemove, assocLookup, Ne.symm h]
    · simp [assocRemove, assocLookup, hk, ih]

theorem parsePartitionValueAt_fst {ctx : Ctx} {cfg : VisitorCfg} {fieldIdx : Nat}
    {pvs : List (String × String)} {k2 : Nat} {nv : String × Scalar}
    (h : parsePartitionValueAt ctx cfg fieldIdx pvs = .ok (k2, nv)) : k2 = fieldIdx := by
  unfold parsePartitionValueAt at h
  split at h
  · cases h
  · split at h
    · cases h
    · injection h with h2
      injection h2 with h3 h4
      exact h3.symm

/-- A successful parse of the partition values covers every Partition field
index of the transform spec (and keeps everything the accumulator already
covered). -/
theorem parsePartitionValuesGo_covers (ctx : Ctx) (cfg : VisitorCfg)
    (pvs : List (String × String)) :
    ∀ (t : List TransformExpr) (acc m : List (Nat × String × Scalar)),
      parsePartitionValuesGo ctx cfg pvs t acc = .ok m →
      ∀ idx, (idx ∈ partitionIdxs t ∨ (assocLookup acc idx).isSome = true) →
        (assocLookup m idx).isSome = true := by
  intro t
  induction t with
  | nil =>
    intro acc m h idx hidx
    simp only [parsePartitionValuesGo, Except.ok.injEq] at h
    subst h
    rcases hidx with hmem | hsome
    · simp [partitionIdxs] at hmem
    · exact hsome
  | cons te rest ih =>
    intro acc m h idx hidx
    cases te with
    | Partition k =>
      simp only [parsePartitionValuesGo] at h
      split at h
      · cases h
      · next k2 nv hpv =>
        have hk2 : k2 = k := parsePartitionValueAt_fst hpv
        subst hk2
        apply ih (assocInsert acc k2 nv) m h idx
        rw [partitionIdxs_partition_cons] at hidx
        rcases hidx with hmem | hsome
        · rcases List.mem_cons.mp hmem with rfl | hmem2
          · right
            rw [assocLookup_insert_self]
            rfl
          · left
            exact hmem2
        · right
          by_cases hik : idx = k2
          · subst hik
            rw [assocLookup_insert_self]
            rfl
          · rw [assocLookup_insert_ne acc k2 nv idx hik]
            exact hsome
    | Static e =>
      simp only [parsePartitionValuesGo] at h
      apply ih acc m h idx
      rw [partitionIdxs_static_cons] at hidx
      exact hidx

/-- Building the transform expression cannot fail when the map covers every
Partition index and the indices are distinct. -/
theorem getTransformExprGo_ok :
    ∀ (t : List TransformExpr) (m : List (Nat × String × Scalar)),
      (∀ idx, idx ∈ partitionIdxs t → (assocLookup m idx).isSome = true) →
      (partitionIdxs t).Nodup →
      ∃ es, getTransformExprGo t m = .ok es := by
  intro t
  induction t with
  | nil =>
    intro m hc hn
    exact ⟨[], rfl⟩
  | cons te rest ih =>
    intro m hc hn
    cases te with
    | Partition k =>
      rw [partitionIdxs_partition_cons] at hc hn
      have hk : (assocLookup m k).isSome = true := hc k (by simp)
      rcases hs : assocLookup m k with _ | ⟨nm, sc⟩
      · rw [hs] at hk
        cases hk
      · have hrem : assocRemove m k = (some (nm, sc), (assocRemove m k).2) := by
          rw [show assocRemove m k = ((assocRemove m k).1, (assocRemove m k).2) from rfl,
            assocRemove_fst, hs]
        have hnd := List.nodup_cons.mp hn
        have hcover : ∀ idx, idx ∈ partitionIdxs rest →
            (assocLookup (assocRemove m k).2 idx).isSome = true := by
          intro idx hmem
          have hne : idx ≠ k := fun he => hnd.1 (he ▸ hmem)
          rw [assocLookup_remove_ne m k idx hne]
          exact hc idx (by simp [hmem])
        obtain ⟨es, hes⟩ := ih (assocRemove m k).2 hcover hnd.2
        refine ⟨.literal sc :: es, ?_⟩
        simp only [getTransformExprGo]
        rw [hrem]
        simp only [hes]
    | Static e =>
      rw [partitionIdxs_static_cons] at hc hn
      obtain ⟨es, hes⟩ := ih m hc hn
      refine ⟨e :: es, ?_⟩
      simp only [getTransformExprGo, hes]

/-- What a successfully built transform-expression element list contains:
one element per transform element, the literal of the looked-up scalar in
every Partition slot and the source expression in every Static slot. -/
theorem getTransformExprGo_spec :
    ∀ (t : List TransformExpr) (m : List (Nat × String × Scalar)) (es : List Expr),
      (partitionIdxs t).Nodup →
      getTransformExprGo t m = .ok es →
      es.length = t.length ∧
      ∀ j, (∀ idx, t.get? j = some (.Partition idx) →
          ∃ nm sc, assocLookup m idx = some (nm, sc) ∧ es.get? j = some (.literal sc)) ∧
        ∀ e0, t.get? j = some (.Static e0) → es.get? j = some e0 := by
  intro t
  induction t with
  | nil =>
    intro m es hn h
    simp only [getTransformExprGo, Except.ok.injEq] at h
    subst h
    refine ⟨rfl, fun j => ⟨fun idx hidx => by simp at hidx, fun e0 hidx => by simp at hidx⟩⟩
  | cons te rest ih =>
    intro m es hn h
    cases te with
    | Partition k =>
      rw [partitionIdxs_partition_cons] at hn
      have hnd := List.nodup_cons.mp hn
      simp only [getTransformExprGo] at h
      split at h
      · cases h
      · next nm sc pv2 hrem =>
        split at h
        · cases h
        · next es2 hes =>
          injection h with h
          subst h
          obtain ⟨hlen, hspec⟩ := ih pv2 es2 hnd.2 hes
          have hpv2 : pv2 = (assocRemove m k).2 := by
            rw [hrem]
          have hlook : assocLookup m k = some (nm, sc) := by
            rw [← assocRemove_fst, hrem]
          refine ⟨by simp [hlen], ?_⟩
          intro j
          cases j with
          | zero =>
            constructor
            · intro idx hidx
              simp only [List.get?_cons_zero, Option.some.injEq] at hidx
              injection hidx with hidx
              subst hidx
              exact ⟨nm, sc, hlook, rfl⟩
            · intro e0 hidx
              simp only [List.get?_cons_zero, Option.some.injEq] at hidx
              cases hidx
          | succ j =>
            simp only [List.get?_cons_succ]
            constructor
            · intro idx hidx
              obtain ⟨nm2, sc2, hl2, he2⟩ := (hspec j).1 idx hidx
              refine ⟨nm2, sc2, ?_, he2⟩
              have hne : idx ≠ k := by
                intro he
                exact hnd.1 (he ▸ mem_partitionIdxs_of_get? hidx)
              rw [← assocLookup_remove_ne m k idx hne, ← hpv2]
              exact hl2
            · exact (hspec j).2
    | Static e =>
      rw [partitionIdxs_static_cons] at hn
      simp only [getTransformExprGo] at h
      split at h
      · cases h
      · next es2 hes =>
        injection h with h
        subst h
        obtain ⟨hlen, hspec⟩ := ih m es2 hn hes
        refine ⟨by simp [hlen], ?_⟩
        intro j
        cases j with
        | zero =>
          constructor
          · intro idx hidx
            simp only [List.get?_cons_zero, Option.some.injEq] at hidx
            cases hidx
          · intro e0 hidx
            simp only [List.get?_cons_zero, Option.some.injEq] at hidx
            injection hidx with hidx
            subst hidx
            rfl
        | succ j =>
          simp only [List.get?_cons_succ]
          exact hspec j

theorem resizeWithNone_of_le {l : List (Option Expr)} {n : Nat} (h : l.length ≤ n) :
    resizeWithNone l n = l ++ List.replicate (n - l.length) none := by
  unfold resizeWithNone
  split
  · next hge =>
    have hl : l.length = n := le_antisymm h hge
    rw [hl, List.take_of_length_le (by omega)]
    simp [hl]
  · rfl

/-- Inversion of parse-and-prune on an Add when a transform spec exists. -/
theorem parseAndPrune_add_elim {ctx : Ctx} {cfg : VisitorCfg} {row : Row}
    {parsed : List (Nat × String × Scalar)} (t : List TransformExpr)
    (htr : cfg.transform = some t)
    (h : parseAndPrune ctx cfg true row = .ok (some parsed)) :
    ∃ rawPvs, row.addPartitionValues = .ok rawPvs ∧
      parsePartitionValues ctx cfg t rawPvs = .ok parsed ∧
      isFilePartitionPruned ctx cfg parsed = false := by
  unfold parseAndPrune at h
  split at h
  · rename_i t2 heqtr heqadd
    have ht2 : t2 = t := by
      rw [htr] at heqtr
      injection heqtr with he
      exact he.symm
    subst ht2
    split at h
    · cases h
    · next rawPvs hraw =>
      split at h
      · cases h
      · next parsed2 hparse =>
        split at h
        · cases h
        · next hnp =>
          injection h with h
          injection h with h
          subst h
          exact ⟨rawPvs, hraw, hparse, Bool.eq_false_iff.mpr hnp⟩
  · rename_i hno
    exact (hno t htr rfl).elim

/-- C4 counterexample: with a transform spec carrying a duplicate Partition
field index, is_valid_add inserts the add's key into the seen-set and then
fails inside get_transform_expr, so the error leaves the seen-set changed —
the insertion does not wait for all fallible work of the row. -/
theorem seen_set_error_counterexample :
    (isValidAdd ctx0 ⟨[⟨"d", ⟨0⟩⟩], some [.Partition 0, .Partition 0], none, true⟩ 0
        (addRow "p") ⟨[], []⟩).1 =
      .error (.internalError "missing partition value for field index") ∧
    (isValidAdd ctx0 ⟨[⟨"d", ⟨0⟩⟩], some [.Partition 0, .Partition 0], none, true⟩ 0
        (addRow "p") ⟨[], []⟩).2.seen = [⟨"p", none⟩] ∧
    ([⟨"p", none⟩] : List FileActionKey) ≠ (⟨[], []⟩ : MutState).seen :=
  ⟨rfl, rfl, by simp⟩

/-- C4 (amended).  Seen-set atomicity on error holds provided the transform
spec's Partition field indices are distinct (which the transform-spec
construction guarantees, one element per logical column): under that
condition get_transform_expr cannot fail after the insertion, so every error
is raised before the seen-set is touched and the whole visitor state is
unchanged. -/
theorem seen_set_error_atomicity
    (ctx : Ctx) (cfg : VisitorCfg) (i : Nat) (row : Row) (st : MutState) (e : Err)
    (st1 : MutState)
    (hnodup : ∀ t, cfg.transform = some t → (partitionIdxs t).Nodup)
    (h : isValidAdd ctx cfg i row st = (.error e, st1)) : st1 = st := by
  unfold isValidAdd at h
  split at h
  · simp only [Prod.mk.injEq] at h
    exact h.2.symm
  · simp only [Prod.mk.injEq] at h
    exact absurd h.1 (by simp)
  · next path dvTy dvPi dvOff isAdd heqc =>
    split at h
    · simp only [Prod.mk.injEq] at h
      exact h.2.symm
    · next dvId hdv =>
      split at h
      · simp only [Prod.mk.injEq] at h
        exact h.2.symm
      · simp only [Prod.mk.injEq] at h
        exact absurd h.1 (by simp)
      · next parsed hpp =>
        split at h
        · next st2 hcr =>
          simp only [Prod.mk.injEq] at h
          exact absurd h.1 (by simp)
        · next st2 hcr =>
          split at h
          · simp only [Prod.mk.injEq] at h
            exact absurd h.1 (by simp)
          · next hisAdd =>
            split at h
            · simp only [Prod.mk.injEq] at h
              exact absurd h.1 (by simp)
            · next t htr =>
              split at h
              · next e2 hte =>
                have hisA : isAdd = true := by
                  cases isAdd
                  · exact absurd rfl hisAdd
                  · rfl
                rw [hisA] at hpp
                obtain ⟨rawPvs, hraw, hparse, hprune⟩ := parseAndPrune_add_elim t htr hpp
                have hcov2 : ∀ idx, idx ∈ partitionIdxs t →
                    (assocLookup parsed idx).isSome = true := fun idx hm =>
                  parsePartitionValuesGo_covers ctx cfg rawPvs t [] parsed hparse idx
                    (Or.inl hm)
                obtain ⟨es, hes⟩ := getTransformExprGo_ok t parsed hcov2 (hnodup t htr)
                unfold getTransformExpr at hte
                rw [hes] at hte
                cases hte
              · simp only [Prod.mk.injEq] at h
                exact absurd h.1 (by simp)

theorem seen_set_error_atomicity_witness :
    (isValidAdd ctx0 ⟨[⟨"d", ⟨0⟩⟩], some [.Partition 0], none, true⟩ 0
        ⟨.error (.engine 7), .ok [], .ok none, .ok "", .ok none, .ok none, .ok none,
          .ok "", .ok none⟩ ⟨[], []⟩).2 = ⟨[], []⟩ :=
  seen_set_error_atomicity ctx0 ⟨[⟨"d", ⟨0⟩⟩], some [.Partition 0], none, true⟩ 0
    ⟨.error (.engine 7), .ok [], .ok none, .ok "", .ok none, .ok none, .ok none,
      .ok "", .ok none⟩ ⟨[], []⟩ (.engine 7) _
    (fun t ht => by injection ht with ht; rw [← ht]; decide) rfl

/-- Inversion of a surviving Add when a transform spec exists: the row's
partition values parsed and survived pruning, the transform expression was
built, and it was appended after right-padding the per-row transform list. -/
theorem isValidAdd_ok_true_elim {ctx : Ctx} {cfg : VisitorCfg} {i : Nat} {row : Row}
    {st st1 : MutState} {t : List TransformExpr}
    (htr : cfg.transform = some t)
    (h : isValidAdd ctx cfg i row st = (.ok true, st1)) :
    ∃ parsed texpr,
      parseAndPrune ctx cfg true row = .ok (some parsed) ∧
      getTransformExpr t parsed = .ok texpr ∧
      st1.rowTransformExprs = resizeWithNone st.rowTransformExprs i ++ [some texpr] := by
  unfold isValidAdd at h
  split at h
  · simp only [Prod.mk.injEq] at h
    exact absurd h.1 (by simp)
  · simp only [Prod.mk.injEq] at h
    exact absurd h.1 (by simp)
  · next path dvTy dvPi dvOff isAdd heqc =>
    split at h
    · simp only [Prod.mk.injEq] at h
      exact absurd h.1 (by simp)
    · next dvId hdv =>
      split at h
      · simp only [Prod.mk.injEq] at h
        exact absurd h.1 (by simp)
      · simp only [Prod.mk.injEq] at h
        exact absurd h.1 (by simp)
      · next parsed hpp =>
        split at h
        · next st2 hcr =>
          simp only [Prod.mk.injEq] at h
          exact absurd h.1 (by simp)
        · next st2 hcr =>
          split at h
          · simp only [Prod.mk.injEq] at h
            exact absurd h.1 (by simp)
          · next hisAdd =>
            have hisA : isAdd = true := by
              cases isAdd
              · exact absurd rfl hisAdd
              · rfl
            split at h
            · next hnone =>
              rw [htr] at hnone
              cases hnone
            · next t2 htr2 =>
              have ht2 : t2 = t := by
                rw [htr] at htr2
                injection htr2 with he
                exact he.symm
              subst ht2
              split at h
              · simp only [Prod.mk.injEq] at h
                exact absurd h.1 (by simp)
              · next texpr hte =>
                simp only [Prod.mk.injEq] at h
                rw [hisA] at hpp
                refine ⟨parsed, texpr, hpp, hte, ?_⟩
                rw [← h.2]
                have hst2 : st2.rowTransformExprs = st.rowTransformExprs := by
                  have hpres := checkAndRecordSeen_rowTransform cfg st ⟨path, dvId⟩
                  rw [hcr] at hpres
                  exact hpres
                show resizeWithNone st2.rowTransformExprs i ++ [some texpr] = _
                rw [hst2]

/-- C7.  Transform alignment: a surviving Add under a transform spec appends
its transform expression after right-padding the per-row transform list with
none up to the row index, so the entry sits at that index; the entry is a
struct expression with one element per logical-schema column, the literal of
the parsed partition scalar in every Partition slot and the source
expression in every Static slot. -/
theorem transform_alignment
    (ctx : Ctx) (cfg : VisitorCfg) (i : Nat) (row : Row) (st st1 : MutState)
    (t : List TransformExpr)
    (htr : cfg.transform = some t)
    (hnodup : (partitionIdxs t).Nodup)
    (hlen : t.length = cfg.logicalSchema.length)
    (hle : st.rowTransformExprs.length ≤ i)
    (h : isValidAdd ctx cfg i row st = (.ok true, st1)) :
    ∃ rawPvs parsed es,
      row.addPartitionValues = .ok rawPvs ∧
      parsePartitionValues ctx cfg t rawPvs = .ok parsed ∧
      st1.rowTransformExprs =
        (st.rowTransformExprs ++ List.replicate (i - st.rowTransformExprs.length) none)
          ++ [some (Expr.structOf es)] ∧
      st1.rowTransformExprs.get? i = some (some (Expr.structOf es)) ∧
      es.length = cfg.logicalSchema.length ∧
      ∀ j, (∀ idx, t.get? j = some (.Partition idx) →
          ∃ nm sc, assocLookup parsed idx = some (nm, sc) ∧
            es.get? j = some (.literal sc)) ∧
        ∀ e0, t.get? j = some (.Static e0) → es.get? j = some e0 := by
  obtain ⟨parsed, texpr, hpp, hte, hrte⟩ := isValidAdd_ok_true_elim htr h
  obtain ⟨rawPvs, hraw, hparse, -⟩ := parseAndPrune_add_elim t htr hpp
  obtain ⟨es, hes, htexpr⟩ : ∃ es, getTransformExprGo t parsed = .ok es ∧
      texpr = .structOf es := by
    unfold getTransformExpr at hte
    split at hte
    · cases hte
    · next es hes2 =>
      injection hte with hte
      exact ⟨es, hes2, hte.symm⟩
  subst htexpr
  obtain ⟨heslen, hspec⟩ := getTransformExprGo_spec t parsed es hnodup hes
  have hresize := resizeWithNone_of_le hle
  have hpadlen : (st.rowTransformExprs ++
      List.replicate (i - st.rowTransformExprs.length) (none : Option Expr)).length = i := by
    simp
    omega
  refine ⟨rawPvs, parsed, es, hraw, hparse, ?_, ?_, ?_, hspec⟩
  · rw [hrte, hresize]
  · rw [hrte, hresize]
    have hcat := List.get?_concat_length
      (st.rowTransformExprs ++ List.replicate (i - st.rowTransformExprs.length) none)
      (some (Expr.structOf es))
    rw [hpadlen] at hcat
    exact hcat
  · rw [heslen, hlen]

theorem transform_alignment_witness :
    ∃ rawPvs parsed es,
      (addRow "p").addPartitionValues = .ok rawPvs ∧
      parsePartitionValues ctx0 ⟨[⟨"d", ⟨0⟩⟩], some [.Partition 0], none, true⟩
          [.Partition 0] rawPvs = .ok parsed ∧
      (MutState.mk [⟨"p", none⟩]
          [some (Expr.structOf [.literal ⟨0⟩])]).rowTransformExprs =
        (([] : List (Option Expr)) ++ List.replicate (0 - 0) none)
          ++ [some (Expr.structOf es)] ∧
      (MutState.mk [⟨"p", none⟩]
          [some (Expr.structOf [.literal ⟨0⟩])]).rowTransformExprs.get? 0 =
        some (some (Expr.structOf es)) ∧
      es.length = 1 ∧
      ∀ j, (∀ idx, ([TransformExpr.Partition 0].get? j) = some (.Partition idx) →
          ∃ nm sc, assocLookup parsed idx = some (nm, sc) ∧
            es.get? j = some (.literal sc)) ∧
        ∀ e0, ([TransformExpr.Partition 0].get? j) = some (.Static e0) →
          es.get? j = some e0 :=
  transform_alignment ctx0 ⟨[⟨"d", ⟨0⟩⟩], some [.Partition 0], none, true⟩ 0 (addRow "p")
    ⟨[], []⟩ ⟨[⟨"p", none⟩], [some (.structOf [.literal ⟨0⟩])]⟩ [.Partition 0]
    rfl (by decide) rfl (by decide) rfl

end DeltaKernel
